import Mathlib

/-!
# Alias metadata field selection (`sdk/helper/aliasmetadata`)

A shallow embedding of `alias_metadata.go` and a verification of its contract.

Modelling conventions

* A Go `map[string]V` is an association list with pairwise distinct keys
  (`AList`); `m[k] = v` is `AList.insert`, a read is `AList.lookup`.
* The order in which `range` visits a map is not fixed by Go. Every function
  that ranges over a map takes a `RangeOrder`, an arbitrary rearrangement of the
  entries, and every theorem holds for all of them.
* A nil pointer and a nil map are `none`; dereferencing a nil pointer and
  writing to a nil map are panics, returned as `Except.error`.
* The two slices of a catalog are slice headers (offset, length, capacity)
  over a memory of string cells, `Mem`, which holds their backing arrays. Two
  slices share a backing array when their windows lie in the same array; Go's
  `append` writes into the spare capacity of its first operand when the result
  fits, and so can overwrite cells that another slice shows. The memory is
  passed to and returned by the functions that read or write the catalog.
* The stored selection and the request's tokens are lists of their own: the
  selection is built by `make` in `ParseAliasMetadata` and shares no cell with
  the catalog.
* The `error` result of `ParseAliasMetadata` is the last component of the
  returned triple (`none` is Go's `nil` error); the first two are the memory
  and the handler after the call.
-/

namespace aliasmetadata

/-- Run-time panics that the embedded code can raise. -/
inductive Panic where
  | nilPointer
  | nilMapWrite
deriving DecidableEq, Repr

/-- A Go `map[string]V`. -/
abbrev GoMap (V : Type) := AList (fun _ : String => V)

/-- One possible order for a `range` loop over a map: a rearrangement of the
entries that neither drops nor repeats one. -/
structure RangeOrder (α : Type) where
  order : List α → List α
  perm : ∀ l : List α, List.Perm (order l) l

/-- The order that visits the entries as they are stored. -/
def RangeOrder.stored (α : Type) : RangeOrder α :=
  { order := fun l => l, perm := fun l => List.Perm.refl l }

/-- The order that visits the entries back to front. -/
def RangeOrder.reversed (α : Type) : RangeOrder α :=
  { order := fun l => l.reverse, perm := fun l => List.reverse_perm l }

/-- The memory that holds the backing arrays of the catalog's slices, one
string per cell, the arrays one after the other. -/
abbrev Mem := List String

/-- A Go slice header for a `[]string`: the offset of its first cell in the
memory, its length and its capacity. Its backing array reaches at least from
`off` to `off + cap`. -/
structure Slice where
  off : Nat
  len : Nat
  cap : Nat
deriving DecidableEq, Repr

/-- The elements that a slice shows in a memory. -/
def Slice.elems (s : Slice) (mem : Mem) : List String :=
  (mem.drop s.off).take s.len

/-- Writing the values `vs` into the cells `i`, `i + 1`, ... of the memory. -/
def writeAt (mem : Mem) (i : Nat) (vs : List String) : Mem :=
  match vs with
  | [] => mem
  | v :: rest => writeAt (mem.set i v) (i + 1) rest

/-- Go's `append(s, t...)`: the memory after the call and the elements of the
slice it returns. When the result fits the capacity of `s`, the elements of
`t`, as they are before the call, are copied into the cells that follow `s` in
its backing array; otherwise a new array is allocated and the memory of the
existing slices is left as it is. In both cases the result shows the elements
of `s` followed by those of `t` as they were before the call. -/
def goAppend (mem : Mem) (s t : Slice) : Mem × List String :=
  if s.len + t.len ≤ s.cap then
    (writeAt mem (s.off + s.len) (t.elems mem), s.elems mem ++ t.elems mem)
  else
    (mem, s.elems mem ++ t.elems mem)

/-- Type `Fields`: the default and the additionally available field names,
two `[]string` slices. -/
structure Fields where
  Default : Slice
  AvailableToAdd : Slice
deriving DecidableEq, Repr

/-- Constant `FieldName`, the user-facing name of the field. -/
def FieldName : String := "alias_metadata"

/-- Type `handler`. `AliasMetadata` is a `*[]string` (`none` is the nil
pointer: never set); `fields` is a `*Fields`. -/
structure handler where
  AliasMetadata : Option (List String)
  fields : Option Fields
deriving DecidableEq, Repr

/-- Function `NewHandler`. -/
def NewHandler (fields : Option Fields) : handler :=
  { AliasMetadata := none, fields := fields }

/-- Modelled from the spec: `strutil.StrListContains` (package
`sdk/helper/strutil`), the membership test of a token in a list of field
names. -/
def StrListContains (haystack : List String) (needle : String) : Bool :=
  match haystack with
  | [] => false
  | item :: rest => if item = needle then true else StrListContains rest needle

/-- Modelled from the spec: `framework.FieldData` (package `sdk/framework`),
the request field parsing that supplies the already tokenized input together
with the flag telling an absent field from a present, possibly empty one. Only
the `alias_metadata` entry is kept; `none` is a request without the field. -/
structure FieldData where
  aliasMetadata : Option (List String)
deriving DecidableEq, Repr

/-- Modelled from the spec: `FieldData.GetOk`; `some v` stands for `(v, true)`
and `none` for `(nil, false)`. -/
def FieldData.GetOk (data : FieldData) (k : String) : Option (List String) :=
  if k = FieldName then data.aliasMetadata else none

/-- The value built by
`fmt.Errorf("%q is not an available field, please select from: %s", field, strings.Join(h.fields.AvailableToAdd, ", "))`,
kept as the two operands of the format. -/
structure FieldError where
  field : String
  selectFrom : String
deriving DecidableEq, Repr

/-- Modelled from the spec: the parts of `logical.Alias` (package
`sdk/logical`) that the helper touches. `Metadata` is a `map[string]string`,
`none` being the nil map. -/
structure Alias where
  Name : String
  Metadata : Option (GoMap String)

/-- Modelled from the spec: the part of `logical.Auth` that the helper
touches. `Alias` is a `*logical.Alias`. -/
structure Auth where
  Alias : Option Alias

/-- Method `GetAliasMetadata`; the result is given by its elements. -/
def GetAliasMetadata (mem : Mem) (h : handler) : Except Panic (List String) :=
  match h.AliasMetadata with
  | none =>
    match h.fields with
    | none => .error .nilPointer
    | some f => .ok (f.Default.elems mem)
  | some s => .ok s

/-- The inner loop of `ParseAliasMetadata`:
`for _, dfltField := range h.fields.Default { uniqueFields[dfltField] = true }`. -/
def addDefaults (dflt : List String) (uniqueFields : GoMap Bool) : GoMap Bool :=
  match dflt with
  | [] => uniqueFields
  | dfltField :: rest => addDefaults rest (uniqueFields.insert dfltField true)

/-- How the outer loop of `ParseAliasMetadata` ends: it runs to the end of the
input, or it leaves the function through `return fmt.Errorf(...)`. -/
inductive LoopExit where
  | finished (uniqueFields : GoMap Bool)
  | returned (err : FieldError)

/-- The outer loop of `ParseAliasMetadata`,
`for _, field := range userProvided.([]string) { ... }`. For a token other
than "default" the condition first runs
`append(h.fields.Default, h.fields.AvailableToAdd...)`, which may write to the
memory; the `strings.Join` of the error reads `AvailableToAdd` after that. -/
def parseLoop (fields : Option Fields) (userProvided : List String) (mem : Mem)
    (uniqueFields : GoMap Bool) : Except Panic (Mem × LoopExit) :=
  match userProvided with
  | [] => .ok (mem, .finished uniqueFields)
  | field :: rest =>
    if field = "default" then
      match fields with
      | none => .error .nilPointer
      | some f => parseLoop fields rest mem (addDefaults (f.Default.elems mem) uniqueFields)
    else
      match fields with
      | none => .error .nilPointer
      | some f =>
        let appended := goAppend mem f.Default f.AvailableToAdd
        if !StrListContains appended.2 field then
          .ok (appended.1, .returned
            { field := field,
              selectFrom := String.intercalate ", " (f.AvailableToAdd.elems appended.1) })
        else
          parseLoop fields rest appended.1 (uniqueFields.insert field true)

/-- Method `ParseAliasMetadata`. The result is the memory and the handler
after the call and the returned `error`. -/
def ParseAliasMetadata (o : RangeOrder String) (mem : Mem) (h : handler) (data : FieldData) :
    Except Panic (Mem × handler × Option FieldError) :=
  match data.GetOk FieldName with
  | none => .ok (mem, h, none)
  | some userProvided =>
    match parseLoop h.fields userProvided mem ∅ with
    | .error p => .error p
    | .ok (mem1, .returned err) => .ok (mem1, h, some err)
    | .ok (mem1, .finished uniqueFields) =>
      let aliasMetadata := o.order uniqueFields.keys
      .ok (mem1, { h with AliasMetadata := some aliasMetadata }, none)

/-- The assignment `auth.Alias.Metadata[availableField] = itsValue`. -/
def setAliasMetadata (auth : Option Auth) (availableField itsValue : String) :
    Except Panic (Option Auth) :=
  match auth with
  | none => .error .nilPointer
  | some a =>
    match a.Alias with
    | none => .error .nilPointer
    | some al =>
      match al.Metadata with
      | none => .error .nilMapWrite
      | some m =>
        .ok (some { a with
          Alias := some { al with Metadata := some (m.insert availableField itsValue) } })

/-- The loop of `PopulateDesiredAliasMetadata`,
`for availableField, itsValue := range available { ... }`, over the entries in
the order of the visit. -/
def populateLoop (fieldsToInclude : List String)
    (entries : List (Sigma fun _ : String => String)) (auth : Option Auth) :
    Except Panic (Option Auth) :=
  match entries with
  | [] => .ok auth
  | e :: rest =>
    if StrListContains fieldsToInclude e.1 then
      match setAliasMetadata auth e.1 e.2 with
      | .error p => .error p
      | .ok auth1 => populateLoop fieldsToInclude rest auth1
    else
      populateLoop fieldsToInclude rest auth

/-- Method `PopulateDesiredAliasMetadata`. The result is the `auth` after the
call. -/
def PopulateDesiredAliasMetadata (o : RangeOrder (Sigma fun _ : String => String))
    (mem : Mem) (h : handler) (auth : Option Auth) (available : GoMap String) :
    Except Panic (Option Auth) :=
  match h.fields with
  | none => .error .nilPointer
  | some f =>
    let fieldsToInclude :=
      match h.AliasMetadata with
      | some s => s
      | none => f.Default.elems mem
    populateLoop fieldsToInclude (o.order available.entries) auth

/-- An `auth` whose alias carries the metadata map `d`. -/
def authWith (name : String) (d : GoMap String) : Option Auth :=
  some { Alias := some { Name := name, Metadata := some d } }

/-- The memory of a catalog written as two slice literals,
`Fields{Default: []string{...}, AvailableToAdd: []string{...}}`: each literal
has an array of its own. -/
def literalMem (dflt avail : List String) : Mem :=
  dflt ++ avail

/-- The slice headers of a catalog written as two slice literals: each slice
fills its array, so its capacity is its length. -/
def literalFields (dflt avail : List String) : Fields :=
  { Default := { off := 0, len := dflt.length, cap := dflt.length },
    AvailableToAdd := { off := dflt.length, len := avail.length, cap := avail.length } }

/-- The memory of the catalog of the package's acceptance test
(`aliasMetadataFields`). -/
def aliasMetadataMem : Mem :=
  literalMem ["role_name"] ["remote_addr"]

/-- The catalog of the package's acceptance test (`aliasMetadataFields`). -/
def aliasMetadataFields : Fields :=
  literalFields ["role_name"] ["remote_addr"]

/-- The memory of a catalog cut from one array,
`base := []string{"a", "x", "b", "c"}`. -/
def baseMem : Mem :=
  ["a", "x", "b", "c"]

/-- The catalog `Fields{Default: base[:1], AvailableToAdd: base[2:4]}` over
`baseMem`: `Default` shows `a` and has the capacity of the whole array,
`AvailableToAdd` shows `b`, `c`. -/
def baseFields : Fields :=
  { Default := { off := 0, len := 1, cap := 4 },
    AvailableToAdd := { off := 2, len := 2, cap := 2 } }

/-- A map from a list of key/value pairs, later pairs overwriting earlier
ones. -/
def mapOf (kvs : List (String × String)) : GoMap String :=
  kvs.foldl (fun m kv => m.insert kv.1 kv.2) ∅

/-- A sequence of `ParseAliasMetadata` calls on one handler, each with its own
request and its own order of the map visit; the memory and the handler are
carried from call to call whether or not the call returned an error. -/
def ParseAll (mem : Mem) (h : handler) (calls : List (RangeOrder String × FieldData)) :
    Except Panic (Mem × handler) :=
  match calls with
  | [] => .ok (mem, h)
  | call :: rest =>
    match ParseAliasMetadata call.1 mem h call.2 with
    | .error p => .error p
    | .ok r => ParseAll r.1 r.2.1 rest

/-- The digit of `n` in Go's `lowerhex` table, "0123456789abcdef". -/
def lowerhex (n : Nat) : Char :=
  "0123456789abcdef".data.getD (n % 16) (Char.ofNat 48)

/-- Go's `strconv.IsPrint`: decided by ranges up to U+00FF; above, by the
Unicode tables of the Go release, which are the parameter `table`. -/
def IsPrint (table : Char → Bool) (r : Char) : Bool :=
  if r.toNat ≤ 0xFF then
    if 0x20 ≤ r.toNat ∧ r.toNat ≤ 0x7E then true
    else if 0xA1 ≤ r.toNat ∧ r.toNat ≤ 0xFF then r.toNat != 0xAD
    else false
  else table r

/-- Go's `strconv.appendEscapedRune` for the double quote as the quote
character, neither ASCII-only nor graphic-only. -/
def appendEscapedRune (table : Char → Bool) (r : Char) : List Char :=
  if r = Char.ofNat 34 ∨ r = Char.ofNat 92 then [Char.ofNat 92, r]
  else if IsPrint table r then [r]
  else if r.toNat = 7 then [Char.ofNat 92, Char.ofNat 97]
  else if r.toNat = 8 then [Char.ofNat 92, Char.ofNat 98]
  else if r.toNat = 12 then [Char.ofNat 92, Char.ofNat 102]
  else if r.toNat = 10 then [Char.ofNat 92, Char.ofNat 110]
  else if r.toNat = 13 then [Char.ofNat 92, Char.ofNat 114]
  else if r.toNat = 9 then [Char.ofNat 92, Char.ofNat 116]
  else if r.toNat = 11 then [Char.ofNat 92, Char.ofNat 118]
  else if r.toNat < 0x20 ∨ r.toNat = 0x7F then
    [Char.ofNat 92, Char.ofNat 120, lowerhex (r.toNat / 16), lowerhex r.toNat]
  else if r.toNat < 0x10000 then
    [Char.ofNat 92, Char.ofNat 117, lowerhex (r.toNat / 4096), lowerhex (r.toNat / 256),
      lowerhex (r.toNat / 16), lowerhex r.toNat]
  else
    [Char.ofNat 92, Char.ofNat 85, lowerhex (r.toNat / 268435456),
      lowerhex (r.toNat / 16777216), lowerhex (r.toNat / 1048576),
      lowerhex (r.toNat / 65536), lowerhex (r.toNat / 4096), lowerhex (r.toNat / 256),
      lowerhex (r.toNat / 16), lowerhex r.toNat]

/-- Go's `strconv.Quote`, which is what the verb `%q` prints for a string: the
runes of `s`, each escaped where needed, between two double quotes. Strings
are sequences of Unicode scalar values (valid UTF-8). -/
def Quote (table : Char → Bool) (s : String) : String :=
  String.mk (Char.ofNat 34 :: (s.data.flatMap (appendEscapedRune table) ++ [Char.ofNat 34]))

/-- The message of the error built in `ParseAliasMetadata`: the format
`"%q is not an available field, please select from: %s"` applied to its two
operands. -/
def FieldError.Error (table : Char → Bool) (e : FieldError) : String :=
  Quote table e.field ++ " is not an available field, please select from: " ++ e.selectFrom

/-- Function `description`. -/
def description (mem : Mem) (fields : Option Fields) : Except Panic String :=
  match fields with
  | none => .error .nilPointer
  | some f =>
    let desc := "The metadata to include on the aliases generated by this plugin."
    let desc :=
      if f.Default.len > 0 then
        desc ++ (" When set to 'default', includes: "
          ++ String.intercalate ", " (f.Default.elems mem) ++ ".")
      else desc
    let desc :=
      if f.AvailableToAdd.len > 0 then
        desc ++ (" These fields are available to add: " ++
          String.intercalate ", " (f.AvailableToAdd.elems mem) ++ ".")
      else desc
    .ok (desc ++ (" Not editing this field means the 'default' fields are included." ++
      " Explicitly setting this field to empty overrides the 'default' and means no alias metadata will be included." ++
      " Add fields by sending, 'default,field1,field2'." ++
      " We advise only including fields that change rarely because each change triggers a storage write."))

/-- Modelled from the spec: the parts of `framework.FieldSchema` (package
`sdk/framework`) that `FieldSchema` fills in: the description, the display
name and value, and the default of the field. -/
structure framework.FieldSchema where
  Description : String
  DisplayName : String
  DisplayValue : String
  Default : List String
deriving DecidableEq, Repr

/-- Function `FieldSchema`. -/
def FieldSchema (mem : Mem) (fields : Option Fields) : Except Panic framework.FieldSchema :=
  match description mem fields with
  | .error p => .error p
  | .ok d =>
    .ok { Description := d, DisplayName := FieldName, DisplayValue := "default,field1,field2",
          Default := ["default"] }

/-- The operation `ApplySelection` in the words of the specification: for
every (key, value) pair of the available data, if the key is among the
effective fields, set that key of the destination metadata to the value. -/
def ApplySelection (effectiveFields : List String) (availableData : GoMap String)
    (destinationMetadata : GoMap String) : GoMap String :=
  availableData.entries.foldl
    (fun dst e => if e.1 ∈ effectiveFields then dst.insert e.1 e.2 else dst)
    destinationMetadata

/-- An `auth` as the login path of the acceptance test builds it: an alias
with only `Name` set, so without a metadata map. -/
def loginAuth (name : String) : Option Auth :=
  some { Alias := some { Name := name, Metadata := none } }

/-- The available data of the login path of the acceptance test. -/
def loginAvailable (roleName remoteAddr : String) : GoMap String :=
  mapOf [("role_name", roleName), ("remote_addr", remoteAddr)]

/-- The `append` of the membership test,
`append(h.fields.Default, h.fields.AvailableToAdd...)`, leaves the elements of
`AvailableToAdd` as they are: `Default` has no spare capacity for them, or the
cells it would write are not shown by `AvailableToAdd`, or they already hold
the values written. -/
def AppendKeepsAvailable (mem : Mem) (C : Fields) : Prop :=
  C.AvailableToAdd.elems (goAppend mem C.Default C.AvailableToAdd).1
    = C.AvailableToAdd.elems mem

/-- The membership test agrees with list membership. -/
theorem StrListContains_iff (l : List String) (x : String) :
    StrListContains l x = true ↔ x ∈ l := by
  induction l with
  | nil => simp [StrListContains]
  | cons a t ih =>
    by_cases hax : a = x
    · simp [StrListContains, hax]
    · have hxa : ¬ x = a := fun e => hax e.symm
      simp [StrListContains, hax, hxa, ih]

/-- Keys after the inner loop: the default fields and the keys already there. -/
theorem mem_addDefaults (dflt : List String) (u : GoMap Bool) (x : String) :
    x ∈ addDefaults dflt u ↔ x ∈ dflt ∨ x ∈ u := by
  induction dflt generalizing u with
  | nil => simp [addDefaults]
  | cons a t ih =>
    simp only [addDefaults, ih, AList.mem_insert, List.mem_cons]
    tauto

/-- A write at or after the end of a slice leaves its elements. -/
theorem elems_set_of_ge (s : Slice) (mem : Mem) (i : Nat) (v : String)
    (hi : s.off + s.len ≤ i) : s.elems (mem.set i v) = s.elems mem := by
  apply List.ext_getElem?
  intro j
  simp only [Slice.elems, List.getElem?_take, List.getElem?_drop]
  split
  · rw [List.getElem?_set_ne (by omega)]
  · rfl

/-- Writes at or after the end of a slice leave its elements. -/
theorem elems_writeAt_of_ge (s : Slice) (vs : List String) (mem : Mem) (i : Nat)
    (hi : s.off + s.len ≤ i) : s.elems (writeAt mem i vs) = s.elems mem := by
  induction vs generalizing mem i with
  | nil => rfl
  | cons v rest ih =>
    rw [writeAt, ih _ _ (by omega), elems_set_of_ge s mem i v hi]

/-- After a write a slice shows what it showed before or the value written. -/
theorem mem_elems_set (s : Slice) (mem : Mem) (i : Nat) (v x : String)
    (hx : x ∈ s.elems (mem.set i v)) : x ∈ s.elems mem ∨ x = v := by
  rw [List.mem_iff_getElem?] at hx
  obtain ⟨j, hj⟩ := hx
  simp only [Slice.elems, List.getElem?_take, List.getElem?_drop] at hj
  split at hj
  · rename_i hlt
    by_cases hij : i = s.off + j
    · right
      rw [hij, List.getElem?_set, if_pos rfl] at hj
      split at hj
      · injection hj with hj
        exact hj.symm
      · exact absurd hj (by simp)
    · left
      rw [List.getElem?_set_ne hij] at hj
      rw [List.mem_iff_getElem?]
      exact ⟨j, by simp only [Slice.elems, List.getElem?_take, List.getElem?_drop, hlt, if_true]; exact hj⟩
  · simp at hj

/-- After writes a slice shows what it showed before or values written. -/
theorem mem_elems_writeAt (s : Slice) (vs : List String) (mem : Mem) (i : Nat) (x : String)
    (hx : x ∈ s.elems (writeAt mem i vs)) : x ∈ s.elems mem ∨ x ∈ vs := by
  induction vs generalizing mem i with
  | nil => exact Or.inl hx
  | cons v rest ih =>
    rw [writeAt] at hx
    rcases ih _ _ hx with h | h
    · rcases mem_elems_set s mem i v x h with h1 | h1
      · exact Or.inl h1
      · exact Or.inr (h1 ▸ List.mem_cons_self _ _)
    · exact Or.inr (List.mem_cons_of_mem _ h)

/-- A write before a block of writes commutes with the block. -/
theorem writeAt_set_comm (vs : List String) (mem : Mem) (i j : Nat) (v : String) (hji : j < i) :
    (writeAt mem i vs).set j v = writeAt (mem.set j v) i vs := by
  induction vs generalizing mem i with
  | nil => rfl
  | cons w rest ih =>
    have hne : i ≠ j := by omega
    rw [writeAt, writeAt, ih _ _ (by omega), List.set_comm w v mem hne]

/-- Writing the same values to the same cells again changes nothing. -/
theorem writeAt_idem (vs : List String) (mem : Mem) (i : Nat) :
    writeAt (writeAt mem i vs) i vs = writeAt mem i vs := by
  induction vs generalizing mem i with
  | nil => rfl
  | cons w rest ih =>
    have h1 : writeAt mem i (w :: rest) = writeAt (mem.set i w) (i + 1) rest := rfl
    have h2 : writeAt (writeAt (mem.set i w) (i + 1) rest) i (w :: rest)
        = writeAt ((writeAt (mem.set i w) (i + 1) rest).set i w) (i + 1) rest := rfl
    rw [h1, h2, writeAt_set_comm _ _ _ _ _ (by omega), List.set_set, ih]

/-- The slice that `append` returns shows the elements of both operands as
they were before the call. -/
theorem goAppend_snd (mem : Mem) (s t : Slice) :
    (goAppend mem s t).2 = s.elems mem ++ t.elems mem := by
  unfold goAppend
  split <;> rfl

/-- An `append` leaves the elements of its first operand. -/
theorem goAppend_keeps_first (mem : Mem) (s t : Slice) :
    s.elems (goAppend mem s t).1 = s.elems mem := by
  unfold goAppend
  split
  · exact elems_writeAt_of_ge s _ mem _ (Nat.le_refl _)
  · rfl

/-- After an `append` the second operand shows only values that it showed
before. -/
theorem goAppend_second_subset (mem : Mem) (s t : Slice) (x : String)
    (hx : x ∈ t.elems (goAppend mem s t).1) : x ∈ t.elems mem := by
  unfold goAppend at hx
  split at hx
  · rcases mem_elems_writeAt t _ mem _ x hx with h | h
    · exact h
    · exact h
  · exact hx

/-- When an `append` leaves the elements of its second operand, a second
`append` of the same operands leaves the whole memory. -/
theorem goAppend_idem (mem : Mem) (s t : Slice)
    (hst : t.elems (goAppend mem s t).1 = t.elems mem) :
    (goAppend (goAppend mem s t).1 s t).1 = (goAppend mem s t).1 := by
  have h1 : goAppend (goAppend mem s t).1 s t
      = if s.len + t.len ≤ s.cap then
          (writeAt (goAppend mem s t).1 (s.off + s.len) (t.elems (goAppend mem s t).1),
            s.elems (goAppend mem s t).1 ++ t.elems (goAppend mem s t).1)
        else ((goAppend mem s t).1,
            s.elems (goAppend mem s t).1 ++ t.elems (goAppend mem s t).1) := rfl
  rw [h1, hst]
  by_cases hc : s.len + t.len ≤ s.cap
  · have h2 : (goAppend mem s t).1 = writeAt mem (s.off + s.len) (t.elems mem) := by
      simp [goAppend, hc]
    rw [if_pos hc, h2]
    exact writeAt_idem _ _ _
  · rw [if_neg hc]

/-- The outer loop on a handler built over a catalog: it completes, it leaves
the elements of `Default`, `AvailableToAdd` shows afterwards only values that
it showed before, and when the loop runs to the end the keys of the map are
characterised and every token was "default" or a member of the catalog as it
was before the call. -/
theorem parseLoop_total (C : Fields) (tokens : List String) (mem : Mem) (u : GoMap Bool) :
    ∃ mem1 r, parseLoop (some C) tokens mem u = .ok (mem1, r) ∧
      C.Default.elems mem1 = C.Default.elems mem ∧
      (∀ x ∈ C.AvailableToAdd.elems mem1, x ∈ C.AvailableToAdd.elems mem) ∧
      ∀ u1, r = .finished u1 →
        (∀ x, x ∈ u1 ↔
          x ∈ u ∨ ("default" ∈ tokens ∧ x ∈ C.Default.elems mem) ∨
            (x ∈ tokens ∧ x ≠ "default")) ∧
        (∀ t ∈ tokens, t = "default" ∨ t ∈ C.Default.elems mem ∨
          t ∈ C.AvailableToAdd.elems mem) := by
  induction tokens generalizing mem u with
  | nil =>
    refine ⟨mem, .finished u, rfl, rfl, fun _ h => h, ?_⟩
    intro u1 hu1
    injection hu1 with hu1
    subst hu1
    exact ⟨by simp, by simp⟩
  | cons a t ih =>
    by_cases ha : a = "default"
    · obtain ⟨mem1, r, hrun, hD, hA, hfin⟩ := ih mem (addDefaults (C.Default.elems mem) u)
      refine ⟨mem1, r, by simp [parseLoop, ha, hrun], hD, hA, ?_⟩
      intro u1 hu1
      obtain ⟨hmem, hval⟩ := hfin u1 hu1
      refine ⟨?_, ?_⟩
      · intro x
        rw [hmem x, mem_addDefaults]
        subst ha
        simp only [List.mem_cons, true_or, true_and]
        constructor
        · rintro ((h | h) | h | h)
          · exact Or.inr (Or.inl h)
          · exact Or.inl h
          · exact Or.inr (Or.inl h.2)
          · exact Or.inr (Or.inr ⟨Or.inr h.1, h.2⟩)
        · rintro (h | h | h)
          · exact Or.inl (Or.inr h)
          · exact Or.inl (Or.inl h)
          · rcases h with ⟨h | h, hne⟩
            · exact absurd h hne
            · exact Or.inr (Or.inr ⟨h, hne⟩)
      · intro s hs
        rcases List.mem_cons.1 hs with h | h
        · exact Or.inl (h.trans ha)
        · exact hval s h
    · by_cases hc : StrListContains (goAppend mem C.Default C.AvailableToAdd).2 a = true
      · obtain ⟨mem1, r, hrun, hD, hA, hfin⟩ :=
          ih (goAppend mem C.Default C.AvailableToAdd).1 (u.insert a true)
        have hD0 := goAppend_keeps_first mem C.Default C.AvailableToAdd
        refine ⟨mem1, r, by simp [parseLoop, ha, hc, hrun], hD.trans hD0,
          fun x hx => goAppend_second_subset mem _ _ x (hA x hx), ?_⟩
        intro u1 hu1
        obtain ⟨hmem, hval⟩ := hfin u1 hu1
        have hin : a ∈ C.Default.elems mem ++ C.AvailableToAdd.elems mem := by
          rw [← goAppend_snd]
          exact (StrListContains_iff _ _).1 hc
        refine ⟨?_, ?_⟩
        · intro x
          rw [hmem x, AList.mem_insert, hD0]
          have hda : ¬ "default" = a := fun e => ha e.symm
          simp only [List.mem_cons, hda, false_or]
          constructor
          · rintro ((h | h) | h | h)
            · exact Or.inr (Or.inr ⟨Or.inl h, h ▸ ha⟩)
            · exact Or.inl h
            · exact Or.inr (Or.inl h)
            · exact Or.inr (Or.inr ⟨Or.inr h.1, h.2⟩)
          · rintro (h | h | h)
            · exact Or.inl (Or.inr h)
            · exact Or.inr (Or.inl h)
            · rcases h with ⟨h | h, hne⟩
              · exact Or.inl (Or.inl h)
              · exact Or.inr (Or.inr ⟨h, hne⟩)
        · intro s hs
          rcases List.mem_cons.1 hs with h | h
          · rw [h]
            exact Or.inr (List.mem_append.1 hin)
          · rcases hval s h with h1 | h1 | h1
            · exact Or.inl h1
            · exact Or.inr (Or.inl (hD0 ▸ h1))
            · exact Or.inr (Or.inr (goAppend_second_subset mem _ _ s h1))
      · refine ⟨(goAppend mem C.Default C.AvailableToAdd).1,
          LoopExit.returned
            { field := a,
              selectFrom := (String.intercalate ", "
                (C.AvailableToAdd.elems (goAppend mem C.Default C.AvailableToAdd).1)) },
          by simp [parseLoop, ha, hc], goAppend_keeps_first mem _ _,
          fun x hx => goAppend_second_subset mem _ _ x hx, ?_⟩
        intro u1 hu1
        exact absurd hu1 (by simp)

/-- One call of `ParseAliasMetadata` on a handler built over a catalog: the
call completes and the catalog's slice headers stay; the elements of `Default`
stay and `AvailableToAdd` shows only values that it showed before; and either
the field was absent and nothing changed, or an error was returned and the
selection is the one before, or a list was stored, without repetition, whose
members are characterised, every token having been "default" or a member of
the catalog. -/
theorem Parse_step (o : RangeOrder String) (mem : Mem) (C : Fields)
    (prior : Option (List String)) (data : FieldData) :
    ∃ mem1 sel err, ParseAliasMetadata o mem { AliasMetadata := prior, fields := some C } data
        = .ok (mem1, { AliasMetadata := sel, fields := some C }, err) ∧
      C.Default.elems mem1 = C.Default.elems mem ∧
      (∀ x ∈ C.AvailableToAdd.elems mem1, x ∈ C.AvailableToAdd.elems mem) ∧
      ((data = { aliasMetadata := none } ∧ mem1 = mem ∧ sel = prior ∧ err = none) ∨
        (∃ tokens e, data = { aliasMetadata := some tokens } ∧ sel = prior ∧ err = some e) ∨
        (∃ (tokens s : List String), data = { aliasMetadata := some tokens } ∧ err = none ∧
          sel = some s ∧ s.Nodup ∧
          (∀ x, x ∈ s ↔
            ("default" ∈ tokens ∧ x ∈ C.Default.elems mem) ∨ (x ∈ tokens ∧ x ≠ "default")) ∧
          (∀ t ∈ tokens, t = "default" ∨ t ∈ C.Default.elems mem ∨
            t ∈ C.AvailableToAdd.elems mem))) := by
  obtain ⟨input⟩ := data
  cases input with
  | none => exact ⟨mem, prior, none, rfl, rfl, fun _ h => h, Or.inl ⟨rfl, rfl, rfl, rfl⟩⟩
  | some tokens =>
    obtain ⟨mem1, r, hrun, hD, hA, hfin⟩ := parseLoop_total C tokens mem ∅
    cases r with
    | returned e =>
      exact ⟨mem1, prior, some e, by simp [ParseAliasMetadata, FieldData.GetOk, hrun], hD, hA,
        Or.inr (Or.inl ⟨tokens, e, rfl, rfl, rfl⟩)⟩
    | finished u1 =>
      obtain ⟨hmem, hval⟩ := hfin u1 rfl
      refine ⟨mem1, some (o.order u1.keys), none,
        by simp [ParseAliasMetadata, FieldData.GetOk, hrun], hD, hA,
        Or.inr (Or.inr ⟨tokens, o.order u1.keys, rfl, rfl, rfl, ?_, ?_, hval⟩)⟩
      · exact (o.perm u1.keys).nodup_iff.2 u1.keys_nodup
      · intro x
        rw [(o.perm u1.keys).mem_iff, ← AList.mem_keys, hmem x]
        simp

/-- A successful present write, read off the result: the handler after the
call holds a list without repetition whose members are characterised. -/
theorem Parse_success (o : RangeOrder String) (mem : Mem) (C : Fields)
    (prior : Option (List String)) (tokens : List String) (mem1 : Mem) (h1 : handler)
    (hok : ParseAliasMetadata o mem { AliasMetadata := prior, fields := some C }
        { aliasMetadata := some tokens } = .ok (mem1, h1, none)) :
    ∃ s, h1 = { AliasMetadata := some s, fields := some C } ∧ s.Nodup ∧
      C.Default.elems mem1 = C.Default.elems mem ∧
      (∀ x, x ∈ s ↔
        ("default" ∈ tokens ∧ x ∈ C.Default.elems mem) ∨ (x ∈ tokens ∧ x ≠ "default")) ∧
      (∀ t ∈ tokens, t = "default" ∨ t ∈ C.Default.elems mem ∨
        t ∈ C.AvailableToAdd.elems mem) := by
  obtain ⟨m, sel, err, hrun, hD, _, hcase⟩ := Parse_step o mem C prior { aliasMetadata := some tokens }
  rw [hrun] at hok
  injection hok with hok
  injection hok with hm hok
  injection hok with hh herr
  rcases hcase with ⟨hdata, _⟩ | ⟨_, e, _, _, he⟩ | ⟨tokens1, s, hdata, _, hs, hnd, hmem, hval⟩
  · exact absurd hdata (by simp)
  · rw [he] at herr
    exact absurd herr (by simp)
  · injection hdata with hdata
    injection hdata with hdata
    subst hdata
    subst hs
    exact ⟨s, hh.symm, hnd, hm ▸ hD, hmem, hval⟩

/-- With no field to include the loop writes nothing. -/
theorem populateLoop_nothing (l : List (Sigma fun _ : String => String)) (auth : Option Auth) :
    populateLoop [] l auth = .ok auth := by
  induction l with
  | nil => rfl
  | cons e t ih => simp [populateLoop, StrListContains, ih]

/-- The loop of `PopulateDesiredAliasMetadata` on an alias that carries a
metadata map, over entries with pairwise distinct keys. -/
theorem populateLoop_alloc (sel : List String) (l : List (Sigma fun _ : String => String))
    (hnd : l.NodupKeys) (name : String) (d : GoMap String) :
    ∃ d1, populateLoop sel l (authWith name d) = .ok (authWith name d1) ∧
      ∀ k, d1.lookup k =
        if k ∈ sel ∧ k ∈ l.keys then List.dlookup k l else d.lookup k := by
  induction l generalizing d with
  | nil => exact ⟨d, rfl, by simp⟩
  | cons e t ih =>
    obtain ⟨k0, v0⟩ := e
    obtain ⟨hk, hndt⟩ := List.nodupKeys_cons.1 hnd
    by_cases hc : StrListContains sel k0 = true
    · obtain ⟨d1, h1, h2⟩ := ih hndt (d.insert k0 v0)
      refine ⟨d1, ?_, ?_⟩
      · simp only [populateLoop, hc, if_true]
        simp only [authWith, setAliasMetadata] at h1 ⊢
        exact h1
      · intro k
        rw [h2 k]
        have hsel : k0 ∈ sel := (StrListContains_iff _ _).1 hc
        by_cases hke : k = k0
        · rw [hke]
          simp [hk, hsel, List.dlookup_cons_eq]
        · have hd : List.dlookup k (⟨k0, v0⟩ :: t) = List.dlookup k t :=
            List.dlookup_cons_ne t ⟨k0, v0⟩ hke
          simp only [List.keys_cons, List.mem_cons, hke, false_or, hd,
            AList.lookup_insert_ne hke]
    · obtain ⟨d1, h1, h2⟩ := ih hndt d
      refine ⟨d1, ?_, ?_⟩
      · simp only [populateLoop, hc]
        exact h1
      · intro k
        rw [h2 k]
        have hsel : ¬ k0 ∈ sel := fun h => hc ((StrListContains_iff _ _).2 h)
        by_cases hke : k = k0
        · rw [hke]
          simp [hsel]
        · have hd : List.dlookup k (⟨k0, v0⟩ :: t) = List.dlookup k t :=
            List.dlookup_cons_ne t ⟨k0, v0⟩ hke
          simp only [List.keys_cons, List.mem_cons, hke, false_or, hd]

/-- On an alias without a metadata map the loop of
`PopulateDesiredAliasMetadata` panics as soon as an entry to include is
visited. -/
theorem populateLoop_nilMap (sel : List String) (l : List (Sigma fun _ : String => String))
    (name : String) (hex : ∃ e ∈ l, e.1 ∈ sel) :
    populateLoop sel l (loginAuth name) = .error .nilMapWrite := by
  induction l with
  | nil => obtain ⟨e, he, _⟩ := hex; simp at he
  | cons e t ih =>
    by_cases hc : StrListContains sel e.1 = true
    · simp [populateLoop, hc, loginAuth, setAliasMetadata]
    · have hex1 : ∃ e1 ∈ t, e1.1 ∈ sel := by
        obtain ⟨e1, he1, hs1⟩ := hex
        rcases List.mem_cons.1 he1 with h | h
        · exact absurd ((StrListContains_iff _ _).2 (h ▸ hs1)) hc
        · exact ⟨e1, h, hs1⟩
      simp only [populateLoop, hc]
      exact ih hex1

/-- Reads of the available data of the login path. -/
theorem loginAvailable_lookup (r a k : String) :
    (loginAvailable r a).lookup k =
      if k = "remote_addr" then some a else if k = "role_name" then some r else none := by
  have hdef : loginAvailable r a
      = ((∅ : GoMap String).insert "role_name" r).insert "remote_addr" a := rfl
  rw [hdef]
  by_cases h1 : k = "remote_addr"
  · rw [h1, AList.lookup_insert, if_pos rfl]
  · by_cases h2 : k = "role_name"
    · have hne : "role_name" ≠ "remote_addr" := by decide
      rw [h2, AList.lookup_insert_ne hne, AList.lookup_insert, if_neg hne, if_pos rfl]
    · rw [AList.lookup_insert_ne h1, AList.lookup_insert_ne h2, AList.lookup_empty,
        if_neg h1, if_neg h2]

/-- Keys of the available data of the login path. -/
theorem loginAvailable_keys (r a : String) :
    (loginAvailable r a).keys = ["remote_addr", "role_name"] := by
  rfl

/-- Reads of a destination after copying, entry by entry, the entries whose
key is among the effective fields, for entries with pairwise distinct keys. -/
theorem foldl_copy_lookup (eff : List String) (l : List (Sigma fun _ : String => String))
    (hnd : l.NodupKeys) (d : GoMap String) (k : String) :
    (l.foldl (fun dst e => if e.1 ∈ eff then dst.insert e.1 e.2 else dst) d).lookup k =
      if k ∈ eff ∧ k ∈ l.keys then List.dlookup k l else d.lookup k := by
  induction l generalizing d with
  | nil => simp
  | cons e t ih =>
    obtain ⟨k0, v0⟩ := e
    obtain ⟨hk, hndt⟩ := List.nodupKeys_cons.1 hnd
    rw [List.foldl_cons, ih hndt]
    by_cases hke : k = k0
    · rw [hke]
      by_cases hsel : k0 ∈ eff
      · simp [hk, hsel, List.dlookup_cons_eq]
      · simp [hsel]
    · have hd : List.dlookup k (⟨k0, v0⟩ :: t) = List.dlookup k t :=
        List.dlookup_cons_ne t ⟨k0, v0⟩ hke
      by_cases hsel : k0 ∈ eff
      · simp only [List.keys_cons, List.mem_cons, hke, false_or, hd, hsel, if_true,
          AList.lookup_insert_ne hke]
      · simp only [List.keys_cons, List.mem_cons, hke, false_or, hd, hsel, if_false]

/-- Reads of the destination of `ApplySelection`. -/
theorem ApplySelection_lookup (eff : List String) (available d : GoMap String) (k : String) :
    (ApplySelection eff available d).lookup k =
      if k ∈ eff ∧ k ∈ available.keys then available.lookup k else d.lookup k :=
  foldl_copy_lookup eff available.entries available.nodupKeys d k

/-- Runes that are printable and are neither the double quote nor the
backslash are not escaped. -/
theorem flatMap_appendEscapedRune_plain (table : Char → Bool) (l : List Char)
    (hl : ∀ c ∈ l, IsPrint table c = true ∧ c ≠ Char.ofNat 34 ∧ c ≠ Char.ofNat 92) :
    l.flatMap (appendEscapedRune table) = l := by
  induction l with
  | nil => rfl
  | cons c rest ih =>
    obtain ⟨hp, hq, hbs⟩ := hl c (List.mem_cons_self _ _)
    have hrest := ih (fun d hd => hl d (List.mem_cons_of_mem _ hd))
    have hc : appendEscapedRune table c = [c] := by
      simp [appendEscapedRune, hp, hq, hbs]
    simp [List.flatMap_cons, hc, hrest]

/-- On a token of plain runes `Quote` is the token between two double
quotes. -/
theorem Quote_plain (table : Char → Bool) (t : String)
    (ht : ∀ c ∈ t.data, IsPrint table c = true ∧ c ≠ Char.ofNat 34 ∧ c ≠ Char.ofNat 92) :
    Quote table t = "\"" ++ t ++ "\"" := by
  apply String.ext
  simp only [Quote, flatMap_appendEscapedRune_plain table t.data ht, String.data_append]
  rfl

/-- The present, empty input stores the empty selection and leaves the
memory. -/
theorem Parse_empty (o : RangeOrder String) (mem : Mem) (C : Fields)
    (prior : Option (List String)) :
    ParseAliasMetadata o mem { AliasMetadata := prior, fields := some C }
        { aliasMetadata := some [] }
      = .ok (mem, { AliasMetadata := some [], fields := some C }, none) := by
  have hnil : o.order [] = [] := List.Perm.eq_nil (o.perm [])
  simp [ParseAliasMetadata, FieldData.GetOk, parseLoop, hnil]

/-- On tokens that are all "default" the outer loop runs to the end and leaves
the memory. -/
theorem parseLoop_defaults (C : Fields) (tokens : List String) (mem : Mem) (u : GoMap Bool)
    (hd : ∀ t ∈ tokens, t = "default") :
    ∃ u1, parseLoop (some C) tokens mem u = .ok (mem, .finished u1) := by
  induction tokens generalizing u with
  | nil => exact ⟨u, rfl⟩
  | cons a t ih =>
    have ha : a = "default" := hd a (List.mem_cons_self _ _)
    obtain ⟨u1, h1⟩ := ih (addDefaults (C.Default.elems mem) u)
      (fun s hs => hd s (List.mem_cons_of_mem _ hs))
    exact ⟨u1, by simp [parseLoop, ha, h1]⟩

/-- A call of `ParseAliasMetadata` that returns an error, read off the result:
the handler is the one before the call, and on a handler built over a catalog
the elements of `Default` are those before the call. -/
theorem Parse_error (o : RangeOrder String) (mem : Mem) (h : handler) (data : FieldData)
    (mem1 : Mem) (h1 : handler) (e : FieldError)
    (herr : ParseAliasMetadata o mem h data = .ok (mem1, h1, some e)) :
    h1 = h ∧ ∀ C, h.fields = some C → C.Default.elems mem1 = C.Default.elems mem := by
  obtain ⟨sel, fields⟩ := h
  cases fields with
  | none =>
    unfold ParseAliasMetadata at herr
    split at herr
    · injection herr with herr
      injection herr with _ herr
      injection herr with _ hn
      exact absurd hn (by simp)
    · rename_i tokens _
      cases tokens with
      | nil => simp [parseLoop] at herr
      | cons a t =>
        by_cases ha : a = "default" <;> simp [parseLoop, ha] at herr
  | some C =>
    obtain ⟨m, sel1, err, hrun, hD, _, hcase⟩ := Parse_step o mem C sel data
    rw [hrun] at herr
    injection herr with herr
    injection herr with hm herr
    injection herr with hh hn
    refine ⟨?_, ?_⟩
    · rcases hcase with ⟨_, _, hs, _⟩ | ⟨_, _, _, hs, _⟩ | ⟨_, _, _, hnone, _⟩
      · rw [← hh, hs]
      · rw [← hh, hs]
      · rw [hnone] at hn
        exact absurd hn (by simp)
    · intro C1 hC1
      injection hC1 with hC1
      rw [← hC1, ← hm]
      exact hD

/-- A token list with a token outside the list `valid` and other than
"default" splits at the first such token. -/
theorem first_invalid_split (valid : List String) (tokens : List String)
    (hb : ∃ t ∈ tokens, t ≠ "default" ∧ t ∉ valid) :
    ∃ pre t post, tokens = pre ++ t :: post ∧
      (∀ u ∈ pre, u = "default" ∨ u ∈ valid) ∧ t ≠ "default" ∧ t ∉ valid := by
  induction tokens with
  | nil => obtain ⟨t, ht, _⟩ := hb; simp at ht
  | cons a rest ih =>
    by_cases ha : a = "default" ∨ a ∈ valid
    · have hb1 : ∃ t ∈ rest, t ≠ "default" ∧ t ∉ valid := by
        obtain ⟨t, ht, hne, hnm⟩ := hb
        rcases List.mem_cons.1 ht with h | h
        · rw [h] at hne hnm
          rcases ha with h1 | h1
          · exact absurd h1 hne
          · exact absurd h1 hnm
        · exact ⟨t, h, hne, hnm⟩
      obtain ⟨pre, t, post, hsplit, hpre, hne, hnm⟩ := ih hb1
      refine ⟨a :: pre, t, post, by rw [hsplit]; rfl, ?_, hne, hnm⟩
      intro u hu
      rcases List.mem_cons.1 hu with h | h
      · rw [h]; exact ha
      · exact hpre u h
    · exact ⟨[], a, rest, rfl, by simp, fun h => ha (Or.inl h), fun h => ha (Or.inr h)⟩

/-- On a catalog whose `AvailableToAdd` is left as it is by the `append` of the
membership test, the outer loop leaves at the first unknown token, with the
error built from that token and the joined additional fields. -/
theorem parseLoop_stops (C : Fields) (pre : List String) (t : String) (post : List String)
    (mem : Mem) (u : GoMap Bool)
    (hkeep : AppendKeepsAvailable mem C)
    (hpre : ∀ v ∈ pre, v = "default" ∨
      v ∈ C.Default.elems mem ++ C.AvailableToAdd.elems mem)
    (hne : t ≠ "default") (hnm : t ∉ C.Default.elems mem ++ C.AvailableToAdd.elems mem) :
    ∃ mem1, parseLoop (some C) (pre ++ t :: post) mem u
      = .ok (mem1, .returned
          { field := t,
            selectFrom := String.intercalate ", " (C.AvailableToAdd.elems mem) }) := by
  induction pre generalizing mem u with
  | nil =>
    have hc : ¬ StrListContains (goAppend mem C.Default C.AvailableToAdd).2 t = true := by
      rw [goAppend_snd]
      exact fun h => hnm ((StrListContains_iff _ _).1 h)
    have hk : C.AvailableToAdd.elems (goAppend mem C.Default C.AvailableToAdd).1
        = C.AvailableToAdd.elems mem := hkeep
    exact ⟨(goAppend mem C.Default C.AvailableToAdd).1, by simp [parseLoop, hne, hc, hk]⟩
  | cons a rest ih =>
    have hrest : ∀ v ∈ rest, v = "default" ∨
        v ∈ C.Default.elems mem ++ C.AvailableToAdd.elems mem :=
      fun v hv => hpre v (List.mem_cons_of_mem _ hv)
    by_cases ha : a = "default"
    · obtain ⟨mem1, h1⟩ := ih mem (addDefaults (C.Default.elems mem) u) hkeep hrest hnm
      exact ⟨mem1, by simp only [List.cons_append, parseLoop, ha, if_true]; exact h1⟩
    · have hmem : a ∈ C.Default.elems mem ++ C.AvailableToAdd.elems mem := by
        rcases hpre a (List.mem_cons_self _ _) with h | h
        · exact absurd h ha
        · exact h
      have hc : StrListContains (goAppend mem C.Default C.AvailableToAdd).2 a = true := by
        rw [goAppend_snd]
        exact (StrListContains_iff _ _).2 hmem
      have hk : C.AvailableToAdd.elems (goAppend mem C.Default C.AvailableToAdd).1
          = C.AvailableToAdd.elems mem := hkeep
      have hD := goAppend_keeps_first mem C.Default C.AvailableToAdd
      have hkeep1 : AppendKeepsAvailable (goAppend mem C.Default C.AvailableToAdd).1 C := by
        unfold AppendKeepsAvailable
        rw [goAppend_idem mem _ _ hk]
      obtain ⟨mem1, h1⟩ := ih (goAppend mem C.Default C.AvailableToAdd).1 (u.insert a true)
        hkeep1 (by rw [hD, hk]; exact hrest) (by rw [hD, hk]; exact hnm)
      rw [hk] at h1
      exact ⟨mem1, by
        simp only [List.cons_append, parseLoop, ha, if_false, hc, Bool.not_true]
        exact h1⟩

/-- Invariants of the stored selection: a property that holds before a
sequence of calls, and of every list a successful present write stores, holds
after the sequence; the sequence completes, the slice headers and the elements
of `Default` stay, and `AvailableToAdd` shows only values that it showed at
the start. -/
theorem ParseAll_invariant (C : Fields) (mem0 : Mem) (P : Option (List String) → Prop)
    (hstep : ∀ (tokens s : List String), s.Nodup →
      (∀ x, x ∈ s ↔
        ("default" ∈ tokens ∧ x ∈ C.Default.elems mem0) ∨ (x ∈ tokens ∧ x ≠ "default")) →
      (∀ t ∈ tokens, t = "default" ∨ t ∈ C.Default.elems mem0 ∨
        t ∈ C.AvailableToAdd.elems mem0) →
      P (some s))
    (calls : List (RangeOrder String × FieldData)) (mem : Mem) (prior : Option (List String))
    (hD : C.Default.elems mem = C.Default.elems mem0)
    (hA : ∀ x ∈ C.AvailableToAdd.elems mem, x ∈ C.AvailableToAdd.elems mem0)
    (hprior : P prior) :
    ∃ mem1 sel, ParseAll mem { AliasMetadata := prior, fields := some C } calls
        = .ok (mem1, { AliasMetadata := sel, fields := some C }) ∧ P sel ∧
      C.Default.elems mem1 = C.Default.elems mem0 ∧
      ∀ x ∈ C.AvailableToAdd.elems mem1, x ∈ C.AvailableToAdd.elems mem0 := by
  induction calls generalizing mem prior with
  | nil => exact ⟨mem, prior, rfl, hprior, hD, hA⟩
  | cons call rest ih =>
    obtain ⟨m, sel, err, hrun, hD1, hA1, hcase⟩ := Parse_step call.1 mem C prior call.2
    have hP : P sel := by
      rcases hcase with ⟨_, _, hs, _⟩ | ⟨_, _, _, hs, _⟩ | ⟨tokens, s, _, _, hs, hnd, hmem, hval⟩
      · rw [hs]; exact hprior
      · rw [hs]; exact hprior
      · rw [hs]
        refine hstep tokens s hnd ?_ ?_
        · intro x
          rw [hmem x, hD]
        · intro t ht
          rcases hval t ht with h | h | h
          · exact Or.inl h
          · exact Or.inr (Or.inl (hD ▸ h))
          · exact Or.inr (Or.inr (hA t h))
    obtain ⟨mem1, sel1, h1, hP1, hD2, hA2⟩ := ih m sel (hD1.trans hD)
      (fun x hx => hA x (hA1 x hx)) hP
    refine ⟨mem1, sel1, ?_, hP1, hD2, hA2⟩
    simp only [ParseAll, hrun]
    exact h1

/-- Method `PopulateDesiredAliasMetadata` on an alias that carries a metadata
map, for every order of the visit. -/
theorem Populate_alloc (o : RangeOrder (Sigma fun _ : String => String)) (mem : Mem)
    (C : Fields) (sel : Option (List String)) (name : String) (d available : GoMap String) :
    ∃ d1, PopulateDesiredAliasMetadata o mem { AliasMetadata := sel, fields := some C }
          (authWith name d) available = .ok (authWith name d1) ∧
      ∀ k, d1.lookup k =
        if k ∈ sel.getD (C.Default.elems mem) ∧ k ∈ available.keys then available.lookup k
        else d.lookup k := by
  have hp := o.perm available.entries
  have hnd : (o.order available.entries).NodupKeys :=
    (List.perm_nodupKeys hp).2 available.nodupKeys
  obtain ⟨d1, h1, h2⟩ := populateLoop_alloc (sel.getD (C.Default.elems mem)) _ hnd name d
  refine ⟨d1, ?_, ?_⟩
  · cases sel <;> exact h1
  · intro k
    rw [h2 k]
    have hkeys : k ∈ (o.order available.entries).keys ↔ k ∈ available.keys :=
      (hp.map Sigma.fst).mem_iff
    have hlook : List.dlookup k (o.order available.entries) = available.lookup k :=
      List.perm_dlookup k hnd available.nodupKeys hp
    simp only [hkeys, hlook]

/-- Method `PopulateDesiredAliasMetadata` on an alias that carries an empty
metadata map: afterwards the map holds the available values of the effective
fields and nothing else. -/
theorem Populate_empty_dest (o : RangeOrder (Sigma fun _ : String => String)) (mem : Mem)
    (C : Fields) (sel : Option (List String)) (name : String) (available : GoMap String) :
    ∃ d1, PopulateDesiredAliasMetadata o mem { AliasMetadata := sel, fields := some C }
          (authWith name ∅) available = .ok (authWith name d1) ∧
      ∀ k, d1.lookup k =
        if k ∈ sel.getD (C.Default.elems mem) then available.lookup k else none := by
  obtain ⟨d1, h1, h2⟩ := Populate_alloc o mem C sel name ∅ available
  refine ⟨d1, h1, ?_⟩
  intro k
  rw [h2 k, AList.lookup_empty]
  by_cases hs : k ∈ sel.getD (C.Default.elems mem)
  · by_cases hk : k ∈ available.keys
    · rw [if_pos ⟨hs, hk⟩, if_pos hs]
    · have hn : available.lookup k = none :=
        AList.lookup_eq_none.2 (fun h => hk (AList.mem_keys.1 h))
      rw [if_neg (fun h => hk h.2), if_pos hs, hn]
  · rw [if_neg (fun h => hs h.1), if_neg hs]

/-- C1: when `ParseAliasMetadata` returns no error on a present token list,
the stored selection is, as a set, the members of `Default` (if the token
"default" occurs in the input) together with every input token other than
"default"; the elements of `Default` are the same before and after the
call. -/
theorem C1_selection_is_union (o : RangeOrder String) (mem : Mem) (C : Fields)
    (prior : Option (List String)) (tokens : List String) (mem1 : Mem) (h1 : handler)
    (hok : ParseAliasMetadata o mem { AliasMetadata := prior, fields := some C }
        { aliasMetadata := some tokens } = .ok (mem1, h1, none)) :
    ∃ s, h1.AliasMetadata = some s ∧
      (∀ x, x ∈ s ↔
        ("default" ∈ tokens ∧ x ∈ C.Default.elems mem) ∨ (x ∈ tokens ∧ x ≠ "default")) ∧
      C.Default.elems mem1 = C.Default.elems mem := by
  obtain ⟨s, hh, _, hD, hmem, _⟩ := Parse_success o mem C prior tokens mem1 h1 hok
  exact ⟨s, by rw [hh], hmem, hD⟩

/-- Witness for C1: a handler holding `remote_addr`, input
`default,remote_addr,default`, entries visited back to front. -/
theorem C1_selection_is_union_witness :
    ParseAliasMetadata (RangeOrder.reversed String) aliasMetadataMem
        { AliasMetadata := some ["remote_addr"], fields := some aliasMetadataFields }
        { aliasMetadata := some ["default", "remote_addr", "default"] }
      = .ok (aliasMetadataMem,
             { AliasMetadata := some ["remote_addr", "role_name"],
               fields := some aliasMetadataFields }, none) ∧
    ∃ s, (some ["remote_addr", "role_name"] : Option (List String)) = some s ∧
      (∀ x, x ∈ s ↔
        ("default" ∈ ["default", "remote_addr", "default"] ∧
          x ∈ aliasMetadataFields.Default.elems aliasMetadataMem) ∨
        (x ∈ ["default", "remote_addr", "default"] ∧ x ≠ "default")) ∧
      aliasMetadataFields.Default.elems aliasMetadataMem
        = aliasMetadataFields.Default.elems aliasMetadataMem :=
  ⟨rfl, C1_selection_is_union (RangeOrder.reversed String) aliasMetadataMem
    aliasMetadataFields (some ["remote_addr"]) ["default", "remote_addr", "default"]
    aliasMetadataMem
    { AliasMetadata := some ["remote_addr", "role_name"], fields := some aliasMetadataFields }
    rfl⟩

/-- C2 fails on the code: on the catalog cut from one array,
`Default = base[:1]` showing `a` and `AvailableToAdd = base[2:4]` showing `b`,
`c`, the input `b,b` is rejected although `b` is a declared member. The
`append` of the membership test for the first `b` writes `b`, `c` into the
spare capacity of `Default`, after which `AvailableToAdd` shows `c`, `c`, and
the second `b` is not found. The same happens on `Default = base[:1]`,
`AvailableToAdd = base[0:2]` over `a`, `b`, `zz`. -/
theorem C2_declared_member_rejected (o : RangeOrder String) :
    baseFields.Default.elems baseMem = ["a"] ∧
    baseFields.AvailableToAdd.elems baseMem = ["b", "c"] ∧
    ParseAliasMetadata o baseMem (NewHandler (some baseFields))
        { aliasMetadata := some ["b", "b"] }
      = .ok (["a", "c", "c", "c"], NewHandler (some baseFields),
             some { field := "b", selectFrom := "c, c" }) ∧
    ParseAliasMetadata o ["a", "b", "zz"]
        (NewHandler (some { Default := { off := 0, len := 1, cap := 3 },
                            AvailableToAdd := { off := 0, len := 2, cap := 3 } }))
        { aliasMetadata := some ["b", "b"] }
      = .ok (["a", "a", "a"],
             NewHandler (some { Default := { off := 0, len := 1, cap := 3 },
                                AvailableToAdd := { off := 0, len := 2, cap := 3 } }),
             some { field := "b", selectFrom := "a, a" }) :=
  ⟨rfl, rfl, rfl, rfl⟩

/-- C3: whenever `ParseAliasMetadata` returns an error, the handler after the
call is the handler before the call, and `GetAliasMetadata` returns what it
returned before. -/
theorem C3_error_keeps_selection (o : RangeOrder String) (mem : Mem) (h : handler)
    (data : FieldData) (mem1 : Mem) (h1 : handler) (e : FieldError)
    (herr : ParseAliasMetadata o mem h data = .ok (mem1, h1, some e)) :
    h1 = h ∧ GetAliasMetadata mem1 h1 = GetAliasMetadata mem h := by
  obtain ⟨hh, hD⟩ := Parse_error o mem h data mem1 h1 e herr
  refine ⟨hh, ?_⟩
  rw [hh]
  obtain ⟨sel, fields⟩ := h
  cases sel with
  | some s => rfl
  | none =>
    cases fields with
    | none => rfl
    | some C =>
      have hC := hD C rfl
      simp only [GetAliasMetadata, hC]

/-- Witness for C3: a handler holding `remote_addr`, input `role_name,bogus`
(a valid token before the invalid one). -/
theorem C3_error_keeps_selection_witness :
    ParseAliasMetadata (RangeOrder.stored String) aliasMetadataMem
        { AliasMetadata := some ["remote_addr"], fields := some aliasMetadataFields }
        { aliasMetadata := some ["role_name", "bogus"] }
      = .ok (aliasMetadataMem,
             { AliasMetadata := some ["remote_addr"], fields := some aliasMetadataFields },
             some { field := "bogus", selectFrom := "remote_addr" }) ∧
    (({ AliasMetadata := some ["remote_addr"], fields := some aliasMetadataFields } : handler)
        = { AliasMetadata := some ["remote_addr"], fields := some aliasMetadataFields } ∧
      GetAliasMetadata aliasMetadataMem
          { AliasMetadata := some ["remote_addr"], fields := some aliasMetadataFields }
        = GetAliasMetadata aliasMetadataMem
          { AliasMetadata := some ["remote_addr"], fields := some aliasMetadataFields }) :=
  ⟨rfl, C3_error_keeps_selection (RangeOrder.stored String) aliasMetadataMem
    { AliasMetadata := some ["remote_addr"], fields := some aliasMetadataFields }
    { aliasMetadata := some ["role_name", "bogus"] } aliasMetadataMem
    { AliasMetadata := some ["remote_addr"], fields := some aliasMetadataFields }
    { field := "bogus", selectFrom := "remote_addr" } rfl⟩

/-- C4: on an alias that carries a metadata map `d`,
`PopulateDesiredAliasMetadata` completes, and afterwards every key that is in
the effective field list and is a key of `available` holds the value from
`available`, while every other key is exactly as in `d`. -/
theorem C4_populate_copies_selected (o : RangeOrder (Sigma fun _ : String => String))
    (mem : Mem) (C : Fields) (sel : Option (List String)) (name : String)
    (d available : GoMap String) :
    ∃ d1, PopulateDesiredAliasMetadata o mem { AliasMetadata := sel, fields := some C }
          (authWith name d) available = .ok (authWith name d1) ∧
      GetAliasMetadata mem { AliasMetadata := sel, fields := some C }
        = .ok (sel.getD (C.Default.elems mem)) ∧
      ∀ k, d1.lookup k =
        if k ∈ sel.getD (C.Default.elems mem) ∧ k ∈ available.keys then available.lookup k
        else d.lookup k := by
  obtain ⟨d1, h1, h2⟩ := Populate_alloc o mem C sel name d available
  refine ⟨d1, h1, ?_, h2⟩
  cases sel <;> rfl

/-- The example of the specification for C4: selection `role_name`,
`remote_addr`, available data with the further key `extra`, empty destination,
entries visited back to front; the destination ends up with exactly the two
selected entries. -/
theorem C4_populate_copies_selected_witness :
    ∃ d1, PopulateDesiredAliasMetadata (RangeOrder.reversed (Sigma fun _ : String => String))
          aliasMetadataMem
          { AliasMetadata := some ["role_name", "remote_addr"],
            fields := some aliasMetadataFields }
          (authWith "admin" ∅)
          (mapOf [("role_name", "admin"), ("remote_addr", "1.2.3.4"), ("extra", "x")])
        = .ok (authWith "admin" d1) ∧
      ∀ k, d1.lookup k =
        (mapOf [("role_name", "admin"), ("remote_addr", "1.2.3.4")]).lookup k := by
  obtain ⟨d1, h1, _, h2⟩ := C4_populate_copies_selected
    (RangeOrder.reversed (Sigma fun _ : String => String)) aliasMetadataMem aliasMetadataFields
    (some ["role_name", "remote_addr"]) "admin" ∅
    (mapOf [("role_name", "admin"), ("remote_addr", "1.2.3.4"), ("extra", "x")])
  refine ⟨d1, h1, ?_⟩
  intro k
  rw [h2 k]
  by_cases hr : k = "role_name"
  · rw [hr]; decide
  · by_cases ha : k = "remote_addr"
    · rw [ha]; decide
    · have hsel : ¬ k ∈ (some ["role_name", "remote_addr"] : Option (List String)).getD
          (aliasMetadataFields.Default.elems aliasMetadataMem) := by
        simp [hr, ha]
      have hl : (mapOf [("role_name", "admin"), ("remote_addr", "1.2.3.4")]).lookup k = none := by
        rw [AList.lookup_eq_none, AList.mem_keys]
        have hk : (mapOf [("role_name", "admin"), ("remote_addr", "1.2.3.4")]).keys
            = ["remote_addr", "role_name"] := by decide
        rw [hk]
        simp [hr, ha]
      rw [hl, if_neg (fun h => hsel h.1)]
      rfl

/-- C5: a handler whose selection has never been set returns the catalog's
`Default` list. -/
theorem C5_unset_returns_default (mem : Mem) (C : Fields) :
    GetAliasMetadata mem { AliasMetadata := none, fields := some C }
      = .ok (C.Default.elems mem) ∧
    GetAliasMetadata mem (NewHandler (some C)) = .ok (C.Default.elems mem) :=
  ⟨rfl, rfl⟩

/-- C6: a handler whose selection is set to the list `s` (also the empty
list) returns `s` itself, not the catalog's `Default` list. -/
theorem C6_set_returns_stored (mem : Mem) (f : Option Fields) (s : List String) :
    GetAliasMetadata mem { AliasMetadata := some s, fields := f } = .ok s :=
  rfl

/-- C7: on a present, empty token list `ParseAliasMetadata` returns no error
and stores the empty selection (set, not nil); `GetAliasMetadata` then returns
the empty list and `PopulateDesiredAliasMetadata` leaves every `auth`
unchanged. -/
theorem C7_empty_input_opts_out (o : RangeOrder String) (mem : Mem) (C : Fields)
    (prior : Option (List String)) :
    ParseAliasMetadata o mem { AliasMetadata := prior, fields := some C }
        { aliasMetadata := some [] }
      = .ok (mem, { AliasMetadata := some [], fields := some C }, none) ∧
    GetAliasMetadata mem { AliasMetadata := some [], fields := some C } = .ok [] ∧
    ∀ (o1 : RangeOrder (Sigma fun _ : String => String)) (auth : Option Auth)
      (available : GoMap String),
      PopulateDesiredAliasMetadata o1 mem { AliasMetadata := some [], fields := some C }
        auth available = .ok auth := by
  refine ⟨Parse_empty o mem C prior, rfl, ?_⟩
  intro o1 auth available
  exact populateLoop_nothing _ auth

/-- C8: for `n ≥ 1` copies of the token "default", `ParseAliasMetadata`
returns no error and `GetAliasMetadata` then yields a list without repetition
whose members are exactly the members of `Default`. -/
theorem C8_repeated_default (o : RangeOrder String) (mem : Mem) (C : Fields)
    (prior : Option (List String)) (n : Nat) (hn : 1 ≤ n) :
    ∃ s, ParseAliasMetadata o mem { AliasMetadata := prior, fields := some C }
          { aliasMetadata := some (List.replicate n "default") }
        = .ok (mem, { AliasMetadata := some s, fields := some C }, none) ∧
      GetAliasMetadata mem { AliasMetadata := some s, fields := some C } = .ok s ∧
      s.Nodup ∧ ∀ x, x ∈ s ↔ x ∈ C.Default.elems mem := by
  obtain ⟨u1, hloop⟩ := parseLoop_defaults C (List.replicate n "default") mem ∅
    (fun t ht => List.eq_of_mem_replicate ht)
  have hrun : ParseAliasMetadata o mem { AliasMetadata := prior, fields := some C }
      { aliasMetadata := some (List.replicate n "default") }
      = .ok (mem, { AliasMetadata := some (o.order u1.keys), fields := some C }, none) := by
    simp [ParseAliasMetadata, FieldData.GetOk, hloop]
  obtain ⟨s, hh, hnd, _, hmem, _⟩ := Parse_success o mem C prior _ mem _ hrun
  injection hh with hs _
  injection hs with hs
  refine ⟨o.order u1.keys, hrun, rfl, hs ▸ hnd, ?_⟩
  intro x
  rw [hs, hmem x]
  have hn0 : n ≠ 0 := by omega
  constructor
  · rintro (h | h)
    · exact h.2
    · exact absurd (List.eq_of_mem_replicate h.1) h.2
  · intro h
    exact Or.inl ⟨List.mem_replicate.2 ⟨hn0, rfl⟩, h⟩

/-- Witness for C8: three copies of "default" on the catalog of the
acceptance test. -/
theorem C8_repeated_default_witness :
    1 ≤ 3 ∧
    ∃ s, ParseAliasMetadata (RangeOrder.stored String) aliasMetadataMem
          { AliasMetadata := some [], fields := some aliasMetadataFields }
          { aliasMetadata := some (List.replicate 3 "default") }
        = .ok (aliasMetadataMem,
               { AliasMetadata := some s, fields := some aliasMetadataFields }, none) ∧
      GetAliasMetadata aliasMetadataMem
          { AliasMetadata := some s, fields := some aliasMetadataFields } = .ok s ∧
      s.Nodup ∧ ∀ x, x ∈ s ↔ x ∈ aliasMetadataFields.Default.elems aliasMetadataMem :=
  ⟨by decide, C8_repeated_default (RangeOrder.stored String) aliasMetadataMem
    aliasMetadataFields (some []) 3 (by decide)⟩

/-- C9: when the `alias_metadata` field is absent from the request,
`ParseAliasMetadata` returns no error and the handler is unchanged: an unset
selection stays unset and a set selection keeps its list. -/
theorem C9_absent_is_noop (o : RangeOrder String) (mem : Mem) (h : handler) :
    ParseAliasMetadata o mem h { aliasMetadata := none } = .ok (mem, h, none) :=
  rfl

/-- C10: when `ParseAliasMetadata` returns no error on a present token list,
the stored selection contains no string twice, whatever repetitions the input
and the catalog contain. -/
theorem C10_selection_nodup (o : RangeOrder String) (mem : Mem) (C : Fields)
    (prior : Option (List String)) (tokens : List String) (mem1 : Mem) (h1 : handler)
    (hok : ParseAliasMetadata o mem { AliasMetadata := prior, fields := some C }
        { aliasMetadata := some tokens } = .ok (mem1, h1, none)) :
    ∃ s, h1.AliasMetadata = some s ∧ s.Nodup := by
  obtain ⟨s, hh, hnd, _⟩ := Parse_success o mem C prior tokens mem1 h1 hok
  exact ⟨s, by rw [hh], hnd⟩

/-- Witness for C10: a catalog whose lists overlap and repeat a name, an input
that repeats "default", repeats a token and names default fields explicitly. -/
theorem C10_selection_nodup_witness :
    ParseAliasMetadata (RangeOrder.stored String) (literalMem ["a", "a", "b"] ["b", "c"])
        { AliasMetadata := none,
          fields := some (literalFields ["a", "a", "b"] ["b", "c"]) }
        { aliasMetadata := some ["default", "a", "c", "default", "c"] }
      = .ok (literalMem ["a", "a", "b"] ["b", "c"],
             { AliasMetadata := some ["c", "b", "a"],
               fields := some (literalFields ["a", "a", "b"] ["b", "c"]) },
             none) ∧
    ∃ s, (some ["c", "b", "a"] : Option (List String)) = some s ∧ s.Nodup :=
  ⟨rfl, C10_selection_nodup (RangeOrder.stored String) (literalMem ["a", "a", "b"] ["b", "c"])
    (literalFields ["a", "a", "b"] ["b", "c"]) none
    ["default", "a", "c", "default", "c"] (literalMem ["a", "a", "b"] ["b", "c"])
    { AliasMetadata := some ["c", "b", "a"],
      fields := some (literalFields ["a", "a", "b"] ["b", "c"]) }
    rfl⟩

/-- C11 fails on the code: on the catalog cut from one array,
`Default = base[:1]` showing `a` and `AvailableToAdd = base[2:4]` showing `b`,
`c`, the valid input `b` succeeds once and stores `b`; the `append` of its
membership test leaves `AvailableToAdd` showing `c`, `c`, and the second call
with the same input returns an error. -/
theorem C11_second_write_rejected (o1 o2 : RangeOrder String) :
    baseFields.AvailableToAdd.elems baseMem = ["b", "c"] ∧
    ParseAliasMetadata o1 baseMem (NewHandler (some baseFields))
        { aliasMetadata := some ["b"] }
      = .ok (["a", "b", "c", "c"],
             { AliasMetadata := some ["b"], fields := some baseFields }, none) ∧
    ParseAliasMetadata o2 ["a", "b", "c", "c"]
        { AliasMetadata := some ["b"], fields := some baseFields }
        { aliasMetadata := some ["b"] }
      = .ok (["a", "c", "c", "c"],
             { AliasMetadata := some ["b"], fields := some baseFields },
             some { field := "b", selectFrom := "c, c" }) := by
  refine ⟨rfl, ?_, rfl⟩
  have hloop : parseLoop (some baseFields) ["b"] baseMem ∅
      = .ok (["a", "b", "c", "c"], .finished ((∅ : GoMap Bool).insert "b" true)) := rfl
  have hone : o1.order ["b"] = ["b"] := List.perm_singleton.1 (o1.perm ["b"])
  have hkeys : ((∅ : GoMap Bool).insert "b" true).keys = ["b"] := rfl
  simp only [ParseAliasMetadata, FieldData.GetOk, NewHandler, if_true, hloop, hkeys, hone]

/-- C12: the login path of the acceptance test, on a fresh handler over the
test's catalog: the alias has no metadata map, `role_name` is a default field
and is in the available data, and the call panics on the write to the nil
map, in every order of the visit. -/
theorem C12_populate_panics_on_nil_map (o : RangeOrder (Sigma fun _ : String => String))
    (roleName remoteAddr : String) :
    PopulateDesiredAliasMetadata o aliasMetadataMem (NewHandler (some aliasMetadataFields))
        (loginAuth roleName) (loginAvailable roleName remoteAddr)
      = .error .nilMapWrite := by
  have hmem : (⟨"role_name", roleName⟩ : Sigma fun _ : String => String) ∈
      (loginAvailable roleName remoteAddr).entries := by
    rw [← AList.mem_lookup_iff, loginAvailable_lookup]
    simp
  have hmem1 : (⟨"role_name", roleName⟩ : Sigma fun _ : String => String) ∈
      o.order (loginAvailable roleName remoteAddr).entries :=
    (o.perm _).mem_iff.2 hmem
  have hsel : "role_name" ∈ aliasMetadataFields.Default.elems aliasMetadataMem := by decide
  exact populateLoop_nilMap _ _ roleName ⟨_, hmem1, hsel⟩

/-- C13: the end-to-end scenario on the catalog of the acceptance test, with
available data `role_name`, `remote_addr` and an empty destination map per
login. (1) On the fresh handler a login yields exactly `role_name`. (2) After
the write `default,remote_addr` a login yields both entries. (3) After the
empty write a login yields the empty map. (4) The write `bogus_field` returns
an error and leaves the handler of step 2, or of step 3, as it was, so a
login afterwards yields the map of that step. The memory of the catalog is the
same after every step. -/
theorem C13_end_to_end (o2 o3 o4 : RangeOrder String) (name r a : String) :
    (∀ ol : RangeOrder (Sigma fun _ : String => String),
      ∃ d1, PopulateDesiredAliasMetadata ol aliasMetadataMem
            (NewHandler (some aliasMetadataFields))
            (authWith name ∅) (loginAvailable r a) = .ok (authWith name d1) ∧
        ∀ k, d1.lookup k = (mapOf [("role_name", r)]).lookup k) ∧
    ∃ s2 : List String,
      ParseAliasMetadata o2 aliasMetadataMem (NewHandler (some aliasMetadataFields))
          { aliasMetadata := some ["default", "remote_addr"] }
        = .ok (aliasMetadataMem,
               { AliasMetadata := some s2, fields := some aliasMetadataFields }, none) ∧
      (∀ ol : RangeOrder (Sigma fun _ : String => String),
        ∃ d2, PopulateDesiredAliasMetadata ol aliasMetadataMem
              { AliasMetadata := some s2, fields := some aliasMetadataFields }
              (authWith name ∅) (loginAvailable r a) = .ok (authWith name d2) ∧
          ∀ k, d2.lookup k = (loginAvailable r a).lookup k) ∧
      (∃ e, ParseAliasMetadata o4 aliasMetadataMem
            { AliasMetadata := some s2, fields := some aliasMetadataFields }
            { aliasMetadata := some ["bogus_field"] }
          = .ok (aliasMetadataMem,
                 { AliasMetadata := some s2, fields := some aliasMetadataFields }, some e)) ∧
      ParseAliasMetadata o3 aliasMetadataMem
          { AliasMetadata := some s2, fields := some aliasMetadataFields }
          { aliasMetadata := some [] }
        = .ok (aliasMetadataMem,
               { AliasMetadata := some [], fields := some aliasMetadataFields }, none) ∧
      (∀ ol : RangeOrder (Sigma fun _ : String => String),
        PopulateDesiredAliasMetadata ol aliasMetadataMem
            { AliasMetadata := some [], fields := some aliasMetadataFields }
            (authWith name ∅) (loginAvailable r a) = .ok (authWith name ∅)) ∧
      (∃ e, ParseAliasMetadata o4 aliasMetadataMem
            { AliasMetadata := some [], fields := some aliasMetadataFields }
            { aliasMetadata := some ["bogus_field"] }
          = .ok (aliasMetadataMem,
                 { AliasMetadata := some [], fields := some aliasMetadataFields },
                 some e)) := by
  have hloop : parseLoop (some aliasMetadataFields) ["default", "remote_addr"]
      aliasMetadataMem ∅
      = .ok (aliasMetadataMem,
          .finished (((∅ : GoMap Bool).insert "role_name" true).insert "remote_addr" true)) :=
    rfl
  have hkeys : (((∅ : GoMap Bool).insert "role_name" true).insert "remote_addr" true).keys
      = ["remote_addr", "role_name"] := rfl
  have hs2 : ParseAliasMetadata o2 aliasMetadataMem (NewHandler (some aliasMetadataFields))
      { aliasMetadata := some ["default", "remote_addr"] }
      = .ok (aliasMetadataMem,
          { AliasMetadata := some (o2.order ["remote_addr", "role_name"]),
            fields := some aliasMetadataFields }, none) := by
    simp only [ParseAliasMetadata, FieldData.GetOk, NewHandler, if_true, hloop, hkeys]
  have hm2 : ∀ k, k ∈ o2.order ["remote_addr", "role_name"] ↔
      k = "remote_addr" ∨ k = "role_name" := by
    intro k
    rw [(o2.perm _).mem_iff]
    simp
  refine ⟨?_, o2.order ["remote_addr", "role_name"], hs2, ?_,
    ⟨{ field := "bogus_field", selectFrom := "remote_addr" }, rfl⟩,
    Parse_empty o3 aliasMetadataMem aliasMetadataFields _, ?_,
    ⟨{ field := "bogus_field", selectFrom := "remote_addr" }, rfl⟩⟩
  · intro ol
    obtain ⟨d1, h1, h2⟩ := Populate_empty_dest ol aliasMetadataMem aliasMetadataFields none name
      (loginAvailable r a)
    refine ⟨d1, h1, ?_⟩
    intro k
    have hdef : mapOf [("role_name", r)] = (∅ : GoMap String).insert "role_name" r := rfl
    have hD : (none : Option (List String)).getD
        (aliasMetadataFields.Default.elems aliasMetadataMem) = ["role_name"] := rfl
    rw [h2 k, loginAvailable_lookup, hdef, hD]
    by_cases hk : k = "role_name"
    · rw [hk, AList.lookup_insert]
      simp
    · rw [AList.lookup_insert_ne hk, AList.lookup_empty]
      simp [hk]
  · intro ol
    obtain ⟨d2, h1, h2⟩ := Populate_empty_dest ol aliasMetadataMem aliasMetadataFields
      (some (o2.order ["remote_addr", "role_name"])) name (loginAvailable r a)
    refine ⟨d2, h1, ?_⟩
    intro k
    rw [h2 k]
    by_cases hs : k ∈ (some (o2.order ["remote_addr", "role_name"]) : Option (List String)).getD
        (aliasMetadataFields.Default.elems aliasMetadataMem)
    · rw [if_pos hs]
    · rw [if_neg hs, loginAvailable_lookup]
      have hs1 : ¬ k ∈ o2.order ["remote_addr", "role_name"] := hs
      rw [hm2 k] at hs1
      rw [if_neg (fun h => hs1 (Or.inl h)), if_neg (fun h => hs1 (Or.inr h))]
  · intro ol
    exact populateLoop_nothing _ _

/-- C14 fails as stated: on a catalog whose `Default` list names a field
"default", the fresh handler and the handler after the write `default` both
return a list that includes the string "default". -/
theorem C14_default_named_field_counterexample :
    GetAliasMetadata (literalMem ["default"] [])
        (NewHandler (some (literalFields ["default"] [])))
      = .ok ["default"] ∧
    ParseAll (literalMem ["default"] []) (NewHandler (some (literalFields ["default"] [])))
        [(RangeOrder.stored String, { aliasMetadata := some ["default"] })]
      = .ok (literalMem ["default"] [],
             { AliasMetadata := some ["default"],
               fields := some (literalFields ["default"] []) }) ∧
    GetAliasMetadata (literalMem ["default"] [])
        { AliasMetadata := some ["default"], fields := some (literalFields ["default"] []) }
      = .ok ["default"] ∧
    "default" ∈ ["default"] :=
  ⟨rfl, rfl, rfl, by decide⟩

/-- C14, amended: on a catalog whose `Default` list does not contain the
string "default", after any sequence of `ParseAliasMetadata` calls from
`NewHandler`, the list returned by `GetAliasMetadata` does not include
"default"; and a further successful write whose input contains "default"
stores a list that includes every member of `Default` and not "default". -/
theorem C14_never_default_keyword (mem : Mem) (C : Fields)
    (hC : "default" ∉ C.Default.elems mem)
    (calls : List (RangeOrder String × FieldData)) :
    ∃ mem1 h s, ParseAll mem (NewHandler (some C)) calls = .ok (mem1, h) ∧
      GetAliasMetadata mem1 h = .ok s ∧ "default" ∉ s ∧
      ∀ (o : RangeOrder String) (tokens : List String) (mem2 : Mem) (h1 : handler),
        "default" ∈ tokens →
        ParseAliasMetadata o mem1 h { aliasMetadata := some tokens } = .ok (mem2, h1, none) →
        ∃ s1, GetAliasMetadata mem2 h1 = .ok s1 ∧
          (∀ x ∈ C.Default.elems mem, x ∈ s1) ∧ "default" ∉ s1 := by
  obtain ⟨mem1, sel, hrun, hP, hD, _⟩ := ParseAll_invariant C mem
    (fun sel => "default" ∉ sel.getD (C.Default.elems mem))
    (by
      intro tokens s _ hmem _
      show "default" ∉ s
      rw [hmem]
      rintro (h | h)
      · exact hC h.2
      · exact h.2 rfl)
    calls mem none rfl (fun _ h => h) hC
  refine ⟨mem1, _, sel.getD (C.Default.elems mem), hrun, ?_, hP, ?_⟩
  · cases sel with
    | none => simp only [GetAliasMetadata, hD]; rfl
    | some s => rfl
  · intro o tokens mem2 h1 hd hok
    obtain ⟨s1, hh, _, _, hm1, _⟩ := Parse_success o mem1 C sel tokens mem2 h1 hok
    refine ⟨s1, by rw [hh]; rfl, ?_, ?_⟩
    · intro x hx
      exact (hm1 x).2 (Or.inl ⟨hd, hD ▸ hx⟩)
    · rw [hm1, hD]
      rintro (h | h)
      · exact hC h.2
      · exact h.2 rfl

/-- Witness for C14: the catalog of the acceptance test and a sequence of a
valid write, a rejected write and a request without the field. -/
theorem C14_never_default_keyword_witness :
    "default" ∉ aliasMetadataFields.Default.elems aliasMetadataMem ∧
    ∃ mem1 h s, ParseAll aliasMetadataMem (NewHandler (some aliasMetadataFields))
          [(RangeOrder.stored String, { aliasMetadata := some ["default", "remote_addr"] }),
           (RangeOrder.reversed String, { aliasMetadata := some ["bogus"] }),
           (RangeOrder.stored String, { aliasMetadata := none })] = .ok (mem1, h) ∧
      GetAliasMetadata mem1 h = .ok s ∧ "default" ∉ s ∧
      ∀ (o : RangeOrder String) (tokens : List String) (mem2 : Mem) (h1 : handler),
        "default" ∈ tokens →
        ParseAliasMetadata o mem1 h { aliasMetadata := some tokens } = .ok (mem2, h1, none) →
        ∃ s1, GetAliasMetadata mem2 h1 = .ok s1 ∧
          (∀ x ∈ aliasMetadataFields.Default.elems aliasMetadataMem, x ∈ s1) ∧
          "default" ∉ s1 :=
  ⟨by decide, C14_never_default_keyword aliasMetadataMem aliasMetadataFields (by decide) _⟩

/-- C15: a present write either returns an error and leaves the handler as it
was, or succeeds and leaves a set selection; a set selection stays set through
every sequence of calls; on a set selection `GetAliasMetadata` returns the
stored list and `PopulateDesiredAliasMetadata` does not depend on the catalog,
so that a stored empty list attaches nothing whatever `Default` is. -/
theorem C15_set_selection_stays_set (mem : Mem) (C : Fields) :
    (∀ (o : RangeOrder String) (prior : Option (List String)) (tokens : List String),
      (∃ mem1 e, ParseAliasMetadata o mem { AliasMetadata := prior, fields := some C }
          { aliasMetadata := some tokens }
        = .ok (mem1, { AliasMetadata := prior, fields := some C }, some e)) ∨
      (∃ mem1 s, ParseAliasMetadata o mem { AliasMetadata := prior, fields := some C }
          { aliasMetadata := some tokens }
        = .ok (mem1, { AliasMetadata := some s, fields := some C }, none))) ∧
    (∀ (s : List String) (calls : List (RangeOrder String × FieldData)),
      ∃ mem1 s1, ParseAll mem { AliasMetadata := some s, fields := some C } calls
        = .ok (mem1, { AliasMetadata := some s1, fields := some C })) ∧
    (∀ s : List String,
      GetAliasMetadata mem { AliasMetadata := some s, fields := some C } = .ok s) ∧
    (∀ (s : List String) (mem2 : Mem) (C2 : Fields)
      (ol : RangeOrder (Sigma fun _ : String => String))
      (auth : Option Auth) (available : GoMap String),
      PopulateDesiredAliasMetadata ol mem { AliasMetadata := some s, fields := some C }
          auth available
        = PopulateDesiredAliasMetadata ol mem2 { AliasMetadata := some s, fields := some C2 }
          auth available) ∧
    (∀ (ol : RangeOrder (Sigma fun _ : String => String)) (auth : Option Auth)
      (available : GoMap String),
      PopulateDesiredAliasMetadata ol mem { AliasMetadata := some [], fields := some C }
          auth available = .ok auth) ∧
    (∀ (ol : RangeOrder (Sigma fun _ : String => String)) (auth : Option Auth)
      (available : GoMap String),
      GetAliasMetadata aliasMetadataMem (NewHandler (some aliasMetadataFields))
        = .ok ["role_name"] ∧
      PopulateDesiredAliasMetadata ol aliasMetadataMem
          { AliasMetadata := some [], fields := some aliasMetadataFields }
          auth available = .ok auth) := by
  refine ⟨?_, ?_, fun _ => rfl, fun _ _ _ _ _ _ => rfl, fun _ _ _ => populateLoop_nothing _ _,
    fun _ _ _ => ⟨rfl, populateLoop_nothing _ _⟩⟩
  · intro o prior tokens
    obtain ⟨mem1, sel, err, hrun, _, _, hcase⟩ :=
      Parse_step o mem C prior { aliasMetadata := some tokens }
    rcases hcase with ⟨hdata, _⟩ | ⟨_, e, _, hs, he⟩ | ⟨_, s, _, he, hs, _⟩
    · exact absurd hdata (by simp)
    · exact Or.inl ⟨mem1, e, by rw [hrun, hs, he]⟩
    · exact Or.inr ⟨mem1, s, by rw [hrun, hs, he]⟩
  · intro s calls
    obtain ⟨mem1, sel, hrun, hP, _, _⟩ := ParseAll_invariant C mem (fun sel => sel ≠ none)
      (fun _ _ _ _ _ => by simp) calls mem (some s) rfl (fun _ h => h) (by simp)
    cases sel with
    | none => exact absurd rfl hP
    | some s1 => exact ⟨mem1, s1, hrun⟩

/-- C16 fails as stated: for the unknown token `a"b` the message starts with
the token in Go's quoted form, in which the inner double quote is escaped by a
backslash, and is not the token itself between double quotes. Besides, on the
catalog cut from one array, where the `append` of the membership test
overwrites `AvailableToAdd`, the input `b,b,zzz` is rejected at the second `b`
and the message lists `c, c`, not at `zzz` with `b, c`. -/
theorem C16_quoted_token_counterexample :
    ParseAliasMetadata (RangeOrder.stored String) aliasMetadataMem
        (NewHandler (some aliasMetadataFields))
        { aliasMetadata := some ["a\"b"] }
      = .ok (aliasMetadataMem, NewHandler (some aliasMetadataFields),
             some { field := "a\"b", selectFrom := "remote_addr" }) ∧
    (∀ table : Char → Bool,
      FieldError.Error table { field := "a\"b", selectFrom := "remote_addr" }
        = "\"a\\\"b\" is not an available field, please select from: remote_addr") ∧
    "\"a\\\"b\" is not an available field, please select from: remote_addr"
      ≠ "\"" ++ "a\"b" ++ "\"" ++ " is not an available field, please select from: "
          ++ String.intercalate ", "
            (aliasMetadataFields.AvailableToAdd.elems aliasMetadataMem) ∧
    ParseAliasMetadata (RangeOrder.stored String) baseMem (NewHandler (some baseFields))
        { aliasMetadata := some ["b", "b", "zzz"] }
      = .ok (["a", "c", "c", "c"], NewHandler (some baseFields),
             some { field := "b", selectFrom := "c, c" }) :=
  ⟨rfl, fun _ => rfl, by decide, rfl⟩

/-- C16, amended: on a catalog whose `AvailableToAdd` is left as it is by the
`append` of the membership test, and on a present input with an unknown token,
the error names the first token in input order that is neither "default" nor
a catalog member; its message is that token as Go's `%q` quotes it, followed
by " is not an available field, please select from: " and the members of
`AvailableToAdd` joined by ", "; the quoted form is the token itself between
double quotes when every rune of the token is printable and is neither the
double quote nor the backslash. -/
theorem C16_error_message (o : RangeOrder String) (mem : Mem) (C : Fields)
    (prior : Option (List String)) (tokens : List String)
    (hkeep : AppendKeepsAvailable mem C)
    (hb : ∃ t ∈ tokens, t ≠ "default" ∧
      ¬ (t ∈ C.Default.elems mem ∨ t ∈ C.AvailableToAdd.elems mem)) :
    ∃ pre t post mem1 e, tokens = pre ++ t :: post ∧
      (∀ u ∈ pre, u = "default" ∨ u ∈ C.Default.elems mem ∨
        u ∈ C.AvailableToAdd.elems mem) ∧
      t ≠ "default" ∧ ¬ (t ∈ C.Default.elems mem ∨ t ∈ C.AvailableToAdd.elems mem) ∧
      ParseAliasMetadata o mem { AliasMetadata := prior, fields := some C }
          { aliasMetadata := some tokens }
        = .ok (mem1, { AliasMetadata := prior, fields := some C }, some e) ∧
      ∀ table : Char → Bool,
        e.Error table
          = Quote table t ++ " is not an available field, please select from: "
              ++ String.intercalate ", " (C.AvailableToAdd.elems mem) ∧
        ((∀ c ∈ t.data, IsPrint table c = true ∧ c ≠ Char.ofNat 34 ∧ c ≠ Char.ofNat 92) →
          e.Error table
            = "\"" ++ t ++ "\"" ++ " is not an available field, please select from: "
                ++ String.intercalate ", " (C.AvailableToAdd.elems mem)) := by
  have hb1 : ∃ t ∈ tokens, t ≠ "default" ∧
      t ∉ C.Default.elems mem ++ C.AvailableToAdd.elems mem := by
    obtain ⟨t, ht, hne, hnm⟩ := hb
    exact ⟨t, ht, hne, fun h => hnm (List.mem_append.1 h)⟩
  obtain ⟨pre, t, post, hsplit, hpre, hne, hnm⟩ := first_invalid_split _ tokens hb1
  obtain ⟨mem1, hloop⟩ := parseLoop_stops C pre t post mem ∅ hkeep hpre hne hnm
  refine ⟨pre, t, post, mem1,
    { field := t,
      selectFrom := (String.intercalate ", " (C.AvailableToAdd.elems mem)) },
    hsplit, ?_, hne, fun h => hnm (List.mem_append.2 h), ?_, ?_⟩
  · intro u hu
    rcases hpre u hu with h | h
    · exact Or.inl h
    · exact Or.inr (List.mem_append.1 h)
  · rw [hsplit]
    simp [ParseAliasMetadata, FieldData.GetOk, hloop]
  · intro table
    refine ⟨rfl, ?_⟩
    intro hplain
    simp only [FieldError.Error, Quote_plain table t hplain]

/-- Witness for C16: the input `bogus` on the catalog of the acceptance test;
the message is the one of the example. -/
theorem C16_error_message_witness :
    AppendKeepsAvailable aliasMetadataMem aliasMetadataFields ∧
    (∃ t ∈ ["bogus"], t ≠ "default" ∧
      ¬ (t ∈ aliasMetadataFields.Default.elems aliasMetadataMem ∨
        t ∈ aliasMetadataFields.AvailableToAdd.elems aliasMetadataMem)) ∧
    (∀ table : Char → Bool,
      FieldError.Error table { field := "bogus", selectFrom := "remote_addr" }
        = "\"bogus\" is not an available field, please select from: remote_addr") ∧
    ∃ pre t post mem1 e, ["bogus"] = pre ++ t :: post ∧
      (∀ u ∈ pre, u = "default" ∨ u ∈ aliasMetadataFields.Default.elems aliasMetadataMem ∨
        u ∈ aliasMetadataFields.AvailableToAdd.elems aliasMetadataMem) ∧
      t ≠ "default" ∧
      ¬ (t ∈ aliasMetadataFields.Default.elems aliasMetadataMem ∨
        t ∈ aliasMetadataFields.AvailableToAdd.elems aliasMetadataMem) ∧
      ParseAliasMetadata (RangeOrder.stored String) aliasMetadataMem
          { AliasMetadata := none, fields := some aliasMetadataFields }
          { aliasMetadata := some ["bogus"] }
        = .ok (mem1, { AliasMetadata := none, fields := some aliasMetadataFields }, some e) ∧
      ∀ table : Char → Bool,
        e.Error table
          = Quote table t ++ " is not an available field, please select from: "
              ++ String.intercalate ", "
                (aliasMetadataFields.AvailableToAdd.elems aliasMetadataMem) ∧
        ((∀ c ∈ t.data, IsPrint table c = true ∧ c ≠ Char.ofNat 34 ∧ c ≠ Char.ofNat 92) →
          e.Error table
            = "\"" ++ t ++ "\"" ++ " is not an available field, please select from: "
                ++ String.intercalate ", "
                  (aliasMetadataFields.AvailableToAdd.elems aliasMetadataMem)) :=
  ⟨rfl, ⟨"bogus", by simp, by decide, by decide⟩, fun _ => rfl,
    C16_error_message (RangeOrder.stored String) aliasMetadataMem aliasMetadataFields none
      ["bogus"] rfl ⟨"bogus", by simp, by decide, by decide⟩⟩

/-- C17: after any sequence of `ParseAliasMetadata` calls from `NewHandler`,
every field name of a set selection is a member of `Default` or of
`AvailableToAdd` as the catalog declared them. -/
theorem C17_selection_within_catalog (mem : Mem) (C : Fields)
    (calls : List (RangeOrder String × FieldData)) :
    ∃ mem1 sel, ParseAll mem (NewHandler (some C)) calls
        = .ok (mem1, { AliasMetadata := sel, fields := some C }) ∧
      ∀ s, sel = some s →
        ∀ x ∈ s, x ∈ C.Default.elems mem ∨ x ∈ C.AvailableToAdd.elems mem := by
  obtain ⟨mem1, sel, hrun, hP, _, _⟩ := ParseAll_invariant C mem
    (fun sel => ∀ s, sel = some s →
      ∀ x ∈ s, x ∈ C.Default.elems mem ∨ x ∈ C.AvailableToAdd.elems mem)
    (by
      intro tokens s _ hmem hv s1 hs1 x hx
      injection hs1 with hs1
      rw [← hs1, hmem] at hx
      rcases hx with h | h
      · exact Or.inl h.2
      · rcases hv x h.1 with h1 | h1
        · exact absurd h1 h.2
        · exact h1)
    calls mem none rfl (fun _ h => h) (by simp)
  exact ⟨mem1, sel, hrun, hP⟩

/-- C18: the text of `description` is the opening sentence, then the sentence
listing `Default` joined by ", " exactly when `Default` is not empty, then the
sentence listing `AvailableToAdd` joined by ", " exactly when `AvailableToAdd`
is not empty, then the four sentences of guidance; `FieldSchema` carries that
text as its description. -/
theorem C18_description_text (mem : Mem) (C : Fields) :
    description mem (some C) = .ok
      ("The metadata to include on the aliases generated by this plugin."
        ++ (if C.Default.len = 0 then ""
            else " When set to 'default', includes: "
              ++ String.intercalate ", " (C.Default.elems mem) ++ ".")
        ++ (if C.AvailableToAdd.len = 0 then ""
            else " These fields are available to add: "
              ++ String.intercalate ", " (C.AvailableToAdd.elems mem) ++ ".")
        ++ " Not editing this field means the 'default' fields are included."
        ++ " Explicitly setting this field to empty overrides the 'default' and means no alias metadata will be included."
        ++ " Add fields by sending, 'default,field1,field2'."
        ++ " We advise only including fields that change rarely because each change triggers a storage write.") ∧
    ∃ d, description mem (some C) = .ok d ∧
      FieldSchema mem (some C) = .ok
        { Description := d, DisplayName := "alias_metadata",
          DisplayValue := "default,field1,field2", Default := ["default"] } := by
  constructor
  · by_cases hd : C.Default.len = 0 <;> by_cases ha : C.AvailableToAdd.len = 0 <;>
      simp [description, hd, ha, Nat.pos_iff_ne_zero, String.append_assoc]
  · cases hdesc : description mem (some C) with
    | error p => simp [description] at hdesc
    | ok d => exact ⟨d, rfl, by simp [FieldSchema, hdesc, FieldName]⟩

/-- C19: on a handler built over a catalog and an alias that carries a
metadata map, `PopulateDesiredAliasMetadata` leaves the destination that
`ApplySelection` computes from the list that `GetAliasMetadata` returns: every
key reads the same, and the two maps have the same entries. -/
theorem C19_populate_refines_apply (o : RangeOrder (Sigma fun _ : String => String))
    (mem : Mem) (C : Fields) (sel : Option (List String)) (name : String)
    (d available : GoMap String) :
    ∃ eff d1, GetAliasMetadata mem { AliasMetadata := sel, fields := some C } = .ok eff ∧
      PopulateDesiredAliasMetadata o mem { AliasMetadata := sel, fields := some C }
          (authWith name d) available = .ok (authWith name d1) ∧
      (∀ k, d1.lookup k = (ApplySelection eff available d).lookup k) ∧
      List.Perm d1.entries (ApplySelection eff available d).entries := by
  obtain ⟨d1, h1, h2⟩ := Populate_alloc o mem C sel name d available
  have hlook : ∀ k, d1.lookup k
      = (ApplySelection (sel.getD (C.Default.elems mem)) available d).lookup k := by
    intro k
    rw [h2 k, ApplySelection_lookup]
  refine ⟨sel.getD (C.Default.elems mem), d1, by cases sel <;> rfl, h1, hlook, ?_⟩
  apply List.lookup_ext d1.nodupKeys (ApplySelection _ available d).nodupKeys
  intro x y
  have hx := hlook x
  simp only [AList.lookup] at hx
  rw [hx]

/-- C20: two successful writes of the same present input on two handlers over
the same catalog store the same set of fields, whatever the two handlers held
before; every stored field is named by the input or, when the input contains
"default", is a member of `Default`. -/
theorem C20_write_replaces_selection (o1 o2 : RangeOrder String) (mem : Mem) (C : Fields)
    (p1 p2 : Option (List String)) (tokens : List String) (m1 m2 : Mem) (h1 h2 : handler)
    (hok1 : ParseAliasMetadata o1 mem { AliasMetadata := p1, fields := some C }
        { aliasMetadata := some tokens } = .ok (m1, h1, none))
    (hok2 : ParseAliasMetadata o2 mem { AliasMetadata := p2, fields := some C }
        { aliasMetadata := some tokens } = .ok (m2, h2, none)) :
    ∃ s1 s2, h1.AliasMetadata = some s1 ∧ h2.AliasMetadata = some s2 ∧
      (∀ x, x ∈ s1 ↔ x ∈ s2) ∧
      ∀ x ∈ s1, x ∈ tokens ∨ ("default" ∈ tokens ∧ x ∈ C.Default.elems mem) := by
  obtain ⟨s1, hh1, _, _, hm1, _⟩ := Parse_success o1 mem C p1 tokens m1 h1 hok1
  obtain ⟨s2, hh2, _, _, hm2, _⟩ := Parse_success o2 mem C p2 tokens m2 h2 hok2
  refine ⟨s1, s2, by rw [hh1], by rw [hh2], fun x => by rw [hm1 x, hm2 x], ?_⟩
  intro x hx
  rcases (hm1 x).1 hx with h | h
  · exact Or.inr h
  · exact Or.inl h.1

/-- Witness for C20: the write `remote_addr` on a fresh handler and on a
handler that held `role_name`; the default field is dropped in both. -/
theorem C20_write_replaces_selection_witness :
    ParseAliasMetadata (RangeOrder.stored String) aliasMetadataMem
        { AliasMetadata := none, fields := some aliasMetadataFields }
        { aliasMetadata := some ["remote_addr"] }
      = .ok (aliasMetadataMem,
             { AliasMetadata := some ["remote_addr"], fields := some aliasMetadataFields },
             none) ∧
    ParseAliasMetadata (RangeOrder.reversed String) aliasMetadataMem
        { AliasMetadata := some ["role_name"], fields := some aliasMetadataFields }
        { aliasMetadata := some ["remote_addr"] }
      = .ok (aliasMetadataMem,
             { AliasMetadata := some ["remote_addr"], fields := some aliasMetadataFields },
             none) ∧
    ∃ s1 s2, (some ["remote_addr"] : Option (List String)) = some s1 ∧
      (some ["remote_addr"] : Option (List String)) = some s2 ∧
      (∀ x, x ∈ s1 ↔ x ∈ s2) ∧
      ∀ x ∈ s1, x ∈ ["remote_addr"] ∨
        ("default" ∈ ["remote_addr"] ∧
          x ∈ aliasMetadataFields.Default.elems aliasMetadataMem) :=
  ⟨rfl, rfl, C20_write_replaces_selection (RangeOrder.stored String)
    (RangeOrder.reversed String) aliasMetadataMem aliasMetadataFields none
    (some ["role_name"]) ["remote_addr"] aliasMetadataMem aliasMetadataMem
    { AliasMetadata := some ["remote_addr"], fields := some aliasMetadataFields }
    { AliasMetadata := some ["remote_addr"], fields := some aliasMetadataFields } rfl rfl⟩

end aliasmetadata
